import Mathlib

/-!
# Verification of the 13F holdings pipeline (`pull_13f_edgar_v25.py`)

A shallow embedding of the pure core of the pipeline: calendar dates and the
date helpers (`parse_date`, `_sort_date`), index-file parsing and filtering
(`parse_index_text`, the discovery filter), CUSIP matching (`match_cusip`),
shares-outstanding validation and resolution (`SO_EXPECTED_RANGES`,
`_validate_so`, `pick_so`), de-duplication (`_recency`, `dedupe_raw`) and
consolidation (`build_panel`).

Representation choices:
* Python `dt.date` values become a `Date` structure of year/month/day
  naturals; Python date comparison is lexicographic on (y, m, d), embedded
  as `dateLtB`/`dateLeB`; day subtraction `(a - b).days` is embedded through
  a proleptic-Gregorian day number `toRD` (only differences of `toRD` are
  ever used, so the epoch offset is irrelevant).
* Python dicts that are filled by insertion and then iterated are embedded
  as association lists built in insertion order with overwrite-on-repeat.
* Numeric row fields that the script stores as strings and coerces with
  `safe_int` at every use are represented directly by their integer value.
* `list.sort`/`sorted` (Timsort, a stable sort) is embedded as
  `List.mergeSort` (also stable) with the same key ordering.
-/

/-- Calendar date, embedding Python `datetime.date`. -/
structure Date where
  y : Nat
  m : Nat
  d : Nat
deriving DecidableEq, Repr

/-- Python date `<` is lexicographic on (year, month, day). -/
def dateLtB (a b : Date) : Bool :=
  a.y < b.y || (a.y == b.y && (a.m < b.m || (a.m == b.m && a.d < b.d)))

/-- Python date `<=` (lexicographic). -/
def dateLeB (a b : Date) : Bool :=
  dateLtB a b || (a == b)

/-- Gregorian leap-year test, as in `datetime`. -/
def isLeap (y : Nat) : Bool :=
  y % 4 == 0 && (y % 100 != 0 || y % 400 == 0)

/-- Days in a month, as in `datetime`. -/
def daysInMonth (y m : Nat) : Nat :=
  if m == 2 then (if isLeap y then 29 else 28)
  else if m == 4 || m == 6 || m == 9 || m == 11 then 30
  else 31

/-- `datetime.date(y, m, d)` construction: validates ranges, else raises
(embedded as `none`). -/
def mkDate (y m d : Nat) : Option Date :=
  if 1 ≤ y ∧ y ≤ 9999 ∧ 1 ≤ m ∧ m ≤ 12 ∧ 1 ≤ d ∧ d ≤ daysInMonth y m then
    some ⟨y, m, d⟩
  else none

/-- Proleptic-Gregorian day number (days-from-civil algorithm).  Only
differences of `toRD` matter (they embed Python `(a - b).days`), so the
epoch origin is irrelevant. -/
def toRD (dte : Date) : Nat :=
  let y := if dte.m ≤ 2 then dte.y - 1 else dte.y
  let era := y / 400
  let yoe := y % 400
  let mp := if 3 ≤ dte.m then dte.m - 3 else dte.m + 9
  let doy := (153 * mp + 2) / 5 + dte.d - 1
  let doe := yoe * 365 + yoe / 4 - yoe / 100 + doy
  era * 146097 + doe

/-- `abs((a - b).days)` for two Python dates. -/
def distDays (a b : Date) : Nat :=
  ((toRD a : Int) - (toRD b : Int)).natAbs

/-!
Python string operations, embedded over `List Char` (the `String.data`
character list), because the claims need them to be evaluable on concrete
inputs.
-/

/-- Python `str` whitespace (space, tab, newline, carriage return, vertical
tab, form feed). -/
def isWs (c : Char) : Bool :=
  c.toNat == 32 || c.toNat == 9 || c.toNat == 10 ||
  c.toNat == 13 || c.toNat == 11 || c.toNat == 12

/-- `str.strip()` on a character list: drop leading and trailing whitespace. -/
def stripList (l : List Char) : List Char :=
  (((l.dropWhile isWs).reverse.dropWhile isWs).reverse)

/-- `str.strip()`. -/
def pyStrip (s : String) : String := ⟨stripList s.data⟩

/-- ASCII uppercase of one character (`str.upper` on the ASCII data that
occurs here). -/
def upChar (c : Char) : Char :=
  if 97 ≤ c.toNat ∧ c.toNat ≤ 122 then Char.ofNat (c.toNat - 32) else c

/-- `str.upper()`. -/
def pyUpper (s : String) : String := ⟨s.data.map upChar⟩

/-- ASCII digit test (`str.isdigit` / regex `\d` on the data occurring
here). -/
def isDigitB (c : Char) : Bool :=
  48 ≤ c.toNat && c.toNat ≤ 57

/-- All characters are digits and the string is non-empty: Python
`str.isdigit()`. -/
def allDigits (l : List Char) : Bool :=
  !l.isEmpty && l.all isDigitB

/-- Numeric value of a digit list. -/
def digitsToNat (l : List Char) : Nat :=
  l.foldl (fun n c => n * 10 + (c.toNat - '0'.toNat)) 0

/-- `str.split(sep)` for a one-character separator, on character lists. -/
def chsplit (sep : Char) : List Char → List (List Char)
  | [] => [[]]
  | c :: rest =>
      let r := chsplit sep rest
      if c == sep then [] :: r
      else (c :: r.headI) :: r.tail

/-- `str.split(sep)` for a one-character separator. -/
def pySplit (s : String) (sep : Char) : List String :=
  (chsplit sep s.data).map (fun l => ⟨l⟩)

/-- `needle.isPrefixOf hay` on character lists (`str.startswith`). -/
def isPre : List Char → List Char → Bool
  | [], _ => true
  | _ :: _, [] => false
  | a :: as, b :: bs => a == b && isPre as bs

/-- Python substring containment `needle in hay`. -/
def hasSub (n : List Char) : List Char → Bool
  | [] => isPre n []
  | c :: t => isPre n (c :: t) || hasSub n t

/-- `parse_date` from the source: strip; empty → None; 8 digits →
`date(int(x[:4]), int(x[4:6]), int(x[6:8]))` guarded by date validity;
else ISO `YYYY-MM-DD` via `date.fromisoformat`, guarded by validity. -/
def parse_date (s : String) : Option Date :=
  match stripList s.data with
  | [] => none
  | a :: rest =>
    let l := a :: rest
    if l.length == 8 && l.all isDigitB then
      match l with
      | [c1, c2, c3, c4, c5, c6, c7, c8] =>
          mkDate (digitsToNat [c1, c2, c3, c4]) (digitsToNat [c5, c6])
            (digitsToNat [c7, c8])
      | _ => none
    else
      match l with
      | [c1, c2, c3, c4, '-', c5, c6, '-', c7, c8] =>
          if [c1, c2, c3, c4, c5, c6, c7, c8].all isDigitB then
            mkDate (digitsToNat [c1, c2, c3, c4]) (digitsToNat [c5, c6])
              (digitsToNat [c7, c8])
          else none
      | _ => none

/-- `_sort_date` from the source: `parse_date(s) or dt.date(9999, 12, 31)`. -/
def _sort_date (s : String) : Date :=
  (parse_date s).getD ⟨9999, 12, 31⟩

/-- `dt.date.min`, the fallback used in the discovery date filter. -/
def dateMin : Date := ⟨1, 1, 1⟩

-- ═══════════════ Shares-outstanding validation (`_validate_so`) ═══════════════

/-- One row of `SO_EXPECTED_RANGES`:
`(era_start, era_end, min_SO, max_SO, fix_divisor)`. -/
structure Era where
  start : Date
  stop : Date
  minSO : Int
  maxSO : Int
  fix : Option Int
deriving DecidableEq, Repr

/-- The deterministic expected-ranges table, verbatim from the source. -/
def SO_EXPECTED_RANGES : List (String × List Era) :=
  [("AAPL",
    [⟨⟨2009, 1, 1⟩, ⟨2014, 6, 8⟩, 800000000, 960000000, some 7⟩,
     ⟨⟨2014, 6, 9⟩, ⟨2020, 8, 30⟩, 4000000000, 6700000000, some 4⟩,
     ⟨⟨2020, 8, 31⟩, ⟨2030, 1, 1⟩, 14000000000, 18000000000, none⟩]),
   ("AMZN",
    [⟨⟨2009, 1, 1⟩, ⟨2022, 6, 5⟩, 420000000, 530000000, some 20⟩,
     ⟨⟨2022, 6, 6⟩, ⟨2030, 1, 1⟩, 9000000000, 11000000000, none⟩]),
   ("MSFT",
    [⟨⟨2009, 1, 1⟩, ⟨2030, 1, 1⟩, 7000000000, 9000000000, none⟩])]

/-- Python truthiness of `fix_div` (`None` and `0` are falsy). -/
def fixTruthy : Option Int → Bool
  | none => false
  | some d => d != 0

/-- The body of the matching-era case of `_validate_so`: in-range → as-is;
too high → try floor-division by the fix divisor; too low → try
multiplication; otherwise `None`.  Python `//` on ints is floor division,
i.e. `Int.fdiv`. -/
def eraCheck (e : Era) (raw : Int) : Option Int :=
  if e.minSO ≤ raw ∧ raw ≤ e.maxSO then some raw
  else if e.maxSO < raw ∧ fixTruthy e.fix ∧
      e.minSO ≤ Int.fdiv raw (e.fix.getD 0) ∧
      Int.fdiv raw (e.fix.getD 0) ≤ e.maxSO then
    some (Int.fdiv raw (e.fix.getD 0))
  else if raw < e.minSO ∧ fixTruthy e.fix ∧
      e.minSO ≤ raw * e.fix.getD 0 ∧ raw * e.fix.getD 0 ≤ e.maxSO then
    some (raw * e.fix.getD 0)
  else none

/-- Whether `report_date` falls inside an era (`era_start <= d <= era_end`). -/
def eraHas (rd : Date) (e : Era) : Bool :=
  dateLeB e.start rd && dateLeB rd e.stop

/-- The `for era ... in ranges` loop of `_validate_so`: the first era
containing the report date decides; falling off the loop passes the raw
value through. -/
def validateLoop (eras : List Era) (rd : Date) (raw : Int) : Option Int :=
  match eras with
  | [] => some raw
  | e :: rest => if eraHas rd e then eraCheck e raw else validateLoop rest rd raw

/-- `_validate_so(ticker, report_date, raw_so)` from the source.  Unknown
ticker (or an empty range list) passes the raw value through. -/
def _validate_so (ticker : String) (rd : Date) (raw : Int) : Option Int :=
  match SO_EXPECTED_RANGES.lookup (pyUpper ticker) with
  | none => some raw
  | some ranges => if ranges.isEmpty then some raw else validateLoop ranges rd raw

/-- The loop equals dispatch on the first era containing the date. -/
theorem validateLoop_eq_find (eras : List Era) (rd : Date) (raw : Int) :
    validateLoop eras rd raw =
      match eras.find? (eraHas rd) with
      | some e => eraCheck e raw
      | none => some raw := by
  induction eras with
  | nil => rfl
  | cons e rest ih =>
    by_cases h : eraHas rd e
    · simp [validateLoop, List.find?, h]
    · simp only [Bool.not_eq_true] at h
      simp [validateLoop, List.find?, h, ih]

/-- Every range list the table can yield has `minSO ≤ maxSO` in each era. -/
theorem lookup_ranges_wf {t : String} {rs : List Era}
    (h : SO_EXPECTED_RANGES.lookup t = some rs) :
    ∀ e ∈ rs, e.minSO ≤ e.maxSO := by
  simp only [SO_EXPECTED_RANGES, List.lookup] at h
  by_cases h1 : (t == "AAPL") = true
  · simp only [h1] at h
    injection h with h
    rw [← h]
    decide
  · simp only [Bool.eq_false_iff.mpr h1] at h
    by_cases h2 : (t == "AMZN") = true
    · simp only [h2] at h
      injection h with h
      rw [← h]
      decide
    · simp only [Bool.eq_false_iff.mpr h2] at h
      by_cases h3 : (t == "MSFT") = true
      · simp only [h3] at h
        injection h with h
        rw [← h]
        decide
      · simp only [Bool.eq_false_iff.mpr h3] at h
        simp at h

/-- C4 — For every ticker with an expected-range table and every report date
inside one of its eras, `_validate_so` returns the raw value when it lies
within the era's [min, max]; else, when above max with a correction factor
whose floor-quotient lands in range, that quotient; else, when below min
with the factor-multiplied value in range, that product; otherwise `none`.
In particular, for AAPL at 2015-06-30, raw 6 200 000 000 is returned
unchanged and raw 24 800 000 000 is returned as 6 200 000 000. -/
theorem c4_validate_so_era_branches :
    (∀ (ticker : String) (rd : Date) (raw : Int) (ranges : List Era) (e : Era),
      SO_EXPECTED_RANGES.lookup (pyUpper ticker) = some ranges →
      ranges.find? (eraHas rd) = some e →
      ((e.minSO ≤ raw ∧ raw ≤ e.maxSO → _validate_so ticker rd raw = some raw) ∧
       (∀ d : Int, e.fix = some d → d ≠ 0 → e.maxSO < raw →
          e.minSO ≤ Int.fdiv raw d → Int.fdiv raw d ≤ e.maxSO →
          _validate_so ticker rd raw = some (Int.fdiv raw d)) ∧
       (∀ d : Int, e.fix = some d → d ≠ 0 → raw < e.minSO →
          e.minSO ≤ raw * d → raw * d ≤ e.maxSO →
          _validate_so ticker rd raw = some (raw * d)) ∧
       (¬ (e.minSO ≤ raw ∧ raw ≤ e.maxSO) →
        (∀ d : Int, e.fix = some d → d ≠ 0 → e.maxSO < raw →
          ¬ (e.minSO ≤ Int.fdiv raw d ∧ Int.fdiv raw d ≤ e.maxSO)) →
        (∀ d : Int, e.fix = some d → d ≠ 0 → raw < e.minSO →
          ¬ (e.minSO ≤ raw * d ∧ raw * d ≤ e.maxSO)) →
        _validate_so ticker rd raw = none))) ∧
    _validate_so "AAPL" ⟨2015, 6, 30⟩ 6200000000 = some 6200000000 ∧
    _validate_so "AAPL" ⟨2015, 6, 30⟩ 24800000000 = some 6200000000 := by
  refine ⟨?_, by decide, by decide⟩
  intro ticker rd raw ranges e hlook hfind
  have hwf : e.minSO ≤ e.maxSO :=
    lookup_ranges_wf hlook e (List.mem_of_find?_eq_some hfind)
  have hne : ranges ≠ [] := by
    intro h
    rw [h] at hfind
    simp [List.find?] at hfind
  have hval : _validate_so ticker rd raw = eraCheck e raw := by
    unfold _validate_so
    rw [hlook]
    simp only [List.isEmpty_iff, hne, if_false, validateLoop_eq_find, hfind]
  refine ⟨?_, ?_, ?_, ?_⟩
  · intro hin
    rw [hval]
    simp [eraCheck, hin]
  · intro d hd hd0 hhi hq1 hq2
    rw [hval]
    unfold eraCheck
    rw [if_neg (by omega), if_pos]
    · simp [hd]
    · simp only [hd, fixTruthy, Option.getD_some]
      refine ⟨hhi, by simpa using hd0, hq1, hq2⟩
  · intro d hd hd0 hlo hm1 hm2
    rw [hval]
    unfold eraCheck
    rw [if_neg (by omega), if_neg (by omega), if_pos]
    · simp [hd]
    · simp only [hd, fixTruthy, Option.getD_some]
      refine ⟨hlo, by simpa using hd0, hm1, hm2⟩
  · intro hout hnodiv hnomul
    rw [hval]
    unfold eraCheck
    rw [if_neg hout, if_neg, if_neg]
    · rintro ⟨hlo, htr, hm1, hm2⟩
      match hfx : e.fix with
      | none => rw [hfx] at htr; simp [fixTruthy] at htr
      | some d =>
          rw [hfx] at htr hm1 hm2
          simp only [fixTruthy, bne_iff_ne, ne_eq, Option.getD_some] at htr hm1 hm2
          exact hnomul d hfx htr hlo ⟨hm1, hm2⟩
    · rintro ⟨hhi, htr, hq1, hq2⟩
      match hfx : e.fix with
      | none => rw [hfx] at htr; simp [fixTruthy] at htr
      | some d =>
          rw [hfx] at htr hq1 hq2
          simp only [fixTruthy, bne_iff_ne, ne_eq, Option.getD_some] at htr hq1 hq2
          exact hnodiv d hfx htr hhi ⟨hq1, hq2⟩

/-- Witness for C4: the AAPL era [4.0B, 6.7B] with divisor 4 around
2015-06-30, exercised on an in-range and an above-range raw value. -/
theorem c4_witness :
    _validate_so "AAPL" ⟨2015, 6, 30⟩ 24800000000 = some 6200000000 := by
  have h := (c4_validate_so_era_branches.1 "AAPL" ⟨2015, 6, 30⟩ 24800000000
    [⟨⟨2009, 1, 1⟩, ⟨2014, 6, 8⟩, 800000000, 960000000, some 7⟩,
     ⟨⟨2014, 6, 9⟩, ⟨2020, 8, 30⟩, 4000000000, 6700000000, some 4⟩,
     ⟨⟨2020, 8, 31⟩, ⟨2030, 1, 1⟩, 14000000000, 18000000000, none⟩]
    ⟨⟨2014, 6, 9⟩, ⟨2020, 8, 30⟩, 4000000000, 6700000000, some 4⟩
    (by decide) (by decide)).2.1 4 rfl (by decide) (by decide)
    (by decide) (by decide)
  simpa using h

/-- C10 — A ticker present in the table whose report date falls outside
every listed era is passed through unvalidated, exactly like a ticker
absent from the table. -/
theorem c10_out_of_era_passthrough :
    (∀ (ticker : String) (rd : Date) (raw : Int) (ranges : List Era),
      SO_EXPECTED_RANGES.lookup (pyUpper ticker) = some ranges →
      ranges.find? (eraHas rd) = none →
      _validate_so ticker rd raw = some raw) ∧
    (∀ (ticker : String) (rd : Date) (raw : Int),
      SO_EXPECTED_RANGES.lookup (pyUpper ticker) = none →
      _validate_so ticker rd raw = some raw) := by
  constructor
  · intro ticker rd raw ranges hlook hfind
    unfold _validate_so
    rw [hlook]
    by_cases hne : ranges.isEmpty
    · simp [hne]
    · simp only [hne, if_false, validateLoop_eq_find, hfind]
      simp
  · intro ticker rd raw hlook
    unfold _validate_so
    rw [hlook]

/-- Witness for C10: AAPL at 2035-01-01 is outside every AAPL era, so a
wildly out-of-range value passes through unchanged; and an unknown ticker
passes through. -/
theorem c10_witness :
    _validate_so "AAPL" ⟨2035, 1, 1⟩ 123 = some 123 ∧
    _validate_so "TSLA" ⟨2015, 6, 30⟩ 77 = some 77 := by
  constructor
  · exact c10_out_of_era_passthrough.1 "AAPL" ⟨2035, 1, 1⟩ 123
      [⟨⟨2009, 1, 1⟩, ⟨2014, 6, 8⟩, 800000000, 960000000, some 7⟩,
       ⟨⟨2014, 6, 9⟩, ⟨2020, 8, 30⟩, 4000000000, 6700000000, some 4⟩,
       ⟨⟨2020, 8, 31⟩, ⟨2030, 1, 1⟩, 14000000000, 18000000000, none⟩]
      (by decide) (by decide)
  · exact c10_out_of_era_passthrough.2 "TSLA" ⟨2015, 6, 30⟩ 77 (by decide)

-- ═══════════════ Shares-outstanding resolution (`pick_so`) ═══════════════

/-- The candidate list of `pick_so`: observations within 180 days of the
report date, as (distance, value) pairs, in series order. -/
def candidatesOf (series : List (Date × Int)) (rd : Date) : List (Nat × Int) :=
  series.filterMap
    (fun p => if distDays p.1 rd ≤ 180 then some (distDays p.1 rd, p.2) else none)

/-- Python tuple `<=` on (distance, value) pairs, the order used by
`candidates.sort()`. -/
def pairLe (a b : Nat × Int) : Bool :=
  a.1 < b.1 || (a.1 == b.1 && a.2 ≤ b.2)

/-- The `for dist, raw_so in candidates` loop of `pick_so`: first candidate
whose validation succeeds decides. -/
def soLoop (ticker : String) (rd : Date) : List (Nat × Int) → Option Int
  | [] => none
  | c :: rest =>
      match _validate_so ticker rd c.2 with
      | some v => some v
      | none => soLoop ticker rd rest

/-- `pick_so(series, report_date, ticker)` from the source. -/
def pick_so (series : List (Date × Int)) (rd : Date) (ticker : String) :
    Option Int :=
  if series.isEmpty then none
  else soLoop ticker rd ((candidatesOf series rd).mergeSort pairLe)

theorem soLoop_eq_none_iff (ticker : String) (rd : Date) (l : List (Nat × Int)) :
    soLoop ticker rd l = none ↔ ∀ c ∈ l, _validate_so ticker rd c.2 = none := by
  induction l with
  | nil => simp [soLoop]
  | cons c rest ih =>
    unfold soLoop
    match h : _validate_so ticker rd c.2 with
    | some v => simp [h]
    | none => simp [h, ih]

theorem soLoop_eq_some (ticker : String) (rd : Date) (l : List (Nat × Int))
    (out : Int) (h : soLoop ticker rd l = some out) :
    ∃ l1 c l2, l = l1 ++ c :: l2 ∧ _validate_so ticker rd c.2 = some out ∧
      ∀ x ∈ l1, _validate_so ticker rd x.2 = none := by
  induction l with
  | nil => simp [soLoop] at h
  | cons c rest ih =>
    unfold soLoop at h
    match hv : _validate_so ticker rd c.2 with
    | some v =>
        rw [hv] at h
        exact ⟨[], c, rest, by simp, by rw [hv]; exact h, by simp⟩
    | none =>
        rw [hv] at h
        obtain ⟨l1, c', l2, heq, hval, hfail⟩ := ih h
        refine ⟨c :: l1, c', l2, by simp [heq], hval, ?_⟩
        intro x hx
        rcases List.mem_cons.mp hx with h1 | h2
        · rw [h1]; exact hv
        · exact hfail x h2

theorem mem_candidatesOf {series : List (Date × Int)} {rd : Date}
    {c : Nat × Int} :
    c ∈ candidatesOf series rd ↔
      ∃ p ∈ series, distDays p.1 rd ≤ 180 ∧ c = (distDays p.1 rd, p.2) := by
  unfold candidatesOf
  rw [List.mem_filterMap]
  constructor
  · rintro ⟨p, hp, hc⟩
    by_cases hd : distDays p.1 rd ≤ 180
    · rw [if_pos hd] at hc
      exact ⟨p, hp, hd, (Option.some_inj.mp hc).symm⟩
    · rw [if_neg hd] at hc
      exact absurd hc (by simp)
  · rintro ⟨p, hp, hd, hc⟩
    exact ⟨p, hp, by rw [if_pos hd, hc]⟩

theorem pairLe_trans : ∀ a b c : Nat × Int,
    pairLe a b = true → pairLe b c = true → pairLe a c = true := by
  intro a b c hab hbc
  simp only [pairLe, Bool.or_eq_true, Bool.and_eq_true, decide_eq_true_eq,
    beq_iff_eq] at *
  omega

theorem pairLe_total : ∀ a b : Nat × Int,
    (pairLe a b || pairLe b a) = true := by
  intro a b
  simp only [pairLe, Bool.or_eq_true, Bool.and_eq_true, decide_eq_true_eq,
    beq_iff_eq]
  omega

/-- C5 — `pick_so` considers exactly the observations within 180 days of
the report date, in order of increasing date distance, and returns the
validated value of the first accepted candidate; when no candidate in the
window validates (in particular when the series is empty) it returns
`none`.  The second conjunct pins the accepted candidate: it lies in the
window, validates to the returned value, and every strictly closer
observation fails validation. -/
theorem c5_pick_so_window_order (ticker : String) (rd : Date)
    (series : List (Date × Int)) :
    (pick_so series rd ticker = none ↔
      ∀ p ∈ series, distDays p.1 rd ≤ 180 → _validate_so ticker rd p.2 = none) ∧
    (∀ out : Int, pick_so series rd ticker = some out →
      ∃ p ∈ series, distDays p.1 rd ≤ 180 ∧
        _validate_so ticker rd p.2 = some out ∧
        ∀ q ∈ series, distDays q.1 rd < distDays p.1 rd →
          _validate_so ticker rd q.2 = none) := by
  have hmemsort : ∀ c : Nat × Int,
      c ∈ (candidatesOf series rd).mergeSort pairLe ↔
        c ∈ candidatesOf series rd :=
    fun c => (List.mergeSort_perm (candidatesOf series rd) pairLe).mem_iff
  constructor
  · by_cases hemp : series.isEmpty
    · rw [List.isEmpty_iff] at hemp
      subst hemp
      simp [pick_so]
    · unfold pick_so
      rw [if_neg hemp, soLoop_eq_none_iff]
      constructor
      · intro h p hp hd
        exact h (distDays p.1 rd, p.2)
          ((hmemsort _).mpr (mem_candidatesOf.mpr ⟨p, hp, hd, rfl⟩))
      · intro h c hc
        obtain ⟨p, hp, hd, hc'⟩ := mem_candidatesOf.mp ((hmemsort c).mp hc)
        rw [hc']
        exact h p hp hd
  · intro out hout
    by_cases hemp : series.isEmpty
    · unfold pick_so at hout
      rw [if_pos hemp] at hout
      exact absurd hout (by simp)
    · unfold pick_so at hout
      rw [if_neg hemp] at hout
      obtain ⟨l1, c, l2, heq, hval, hfail⟩ := soLoop_eq_some _ _ _ _ hout
      have hcmem : c ∈ (candidatesOf series rd).mergeSort pairLe := by
        rw [heq]
        exact List.mem_append_right _ (List.mem_cons_self _ _)
      obtain ⟨p, hp, hd, hcp⟩ := mem_candidatesOf.mp ((hmemsort c).mp hcmem)
      have hc2 : c.2 = p.2 := by rw [hcp]
      refine ⟨p, hp, hd, hc2 ▸ hval, ?_⟩
      intro q hq hqlt
      by_cases hqw : distDays q.1 rd ≤ 180
      · have hqmem : (distDays q.1 rd, q.2) ∈
            (candidatesOf series rd).mergeSort pairLe :=
          (hmemsort _).mpr (mem_candidatesOf.mpr ⟨q, hq, hqw, rfl⟩)
        rw [heq] at hqmem
        rcases List.mem_append.mp hqmem with h1 | h2
        · exact hfail _ h1
        · rcases List.mem_cons.mp h2 with h3 | h4
          · exfalso
            have h3f : distDays q.1 rd = distDays p.1 rd := by
              have h3c := congrArg Prod.fst h3
              rw [hcp] at h3c
              simpa using h3c
            omega
          · exfalso
            have hsorted := List.sorted_mergeSort pairLe_trans pairLe_total
              (candidatesOf series rd)
            rw [heq] at hsorted
            have h5 := (List.pairwise_append.mp hsorted).2.1
            have h6 := (List.pairwise_cons.mp h5).1 _ h4
            have hc1 : c.1 = distDays p.1 rd := by rw [hcp]
            simp only [pairLe, Bool.or_eq_true, Bool.and_eq_true,
              decide_eq_true_eq, beq_iff_eq] at h6
            rcases h6 with h6 | ⟨h6, _⟩ <;> omega
      · omega

/-- Witness for C5: one MSFT observation 91 days from the report date
validates and is returned; instantiating the theorem yields the accepted
candidate. -/
theorem c5_witness :
    ∃ p ∈ [((⟨2015, 3, 31⟩ : Date), (8000000000 : Int))],
      distDays p.1 ⟨2015, 6, 30⟩ ≤ 180 ∧
      _validate_so "MSFT" ⟨2015, 6, 30⟩ p.2 = some 8000000000 ∧
      ∀ q ∈ [((⟨2015, 3, 31⟩ : Date), (8000000000 : Int))],
        distDays q.1 ⟨2015, 6, 30⟩ < distDays p.1 ⟨2015, 6, 30⟩ →
        _validate_so "MSFT" ⟨2015, 6, 30⟩ q.2 = none :=
  (c5_pick_so_window_order "MSFT" ⟨2015, 6, 30⟩
    [(⟨2015, 3, 31⟩, 8000000000)]).2 8000000000 (by
      unfold pick_so
      rw [if_neg (by decide)]
      have hc : candidatesOf [((⟨2015, 3, 31⟩ : Date), (8000000000 : Int))]
          ⟨2015, 6, 30⟩ = [(91, 8000000000)] := by decide
      rw [hc, List.mergeSort_singleton]
      decide)

-- ═══════════════ CUSIP matching (`match_cusip`) ═══════════════

/-- `s[:n]` on a string. -/
def strTake (s : String) (n : Nat) : String := ⟨s.data.take n⟩

/-- `len(s)` (all identifiers here are ASCII, so character count). -/
def strLen (s : String) : Nat := s.data.length

/-- The `cusip_prefix_8` dict: `for c in allowed: if len(c) >= 8:
dict[c[:8]] = c`.  The dict is only ever queried by key, so it is embedded
as the insertion log with newest bindings in front: `List.lookup` then
returns the most recent binding, which is exactly Python's
overwrite-on-reassignment semantics. -/
def cusip_prefix_8 (allowed : List String) : List (String × String) :=
  allowed.foldl (fun d c => if 8 ≤ strLen c then (strTake c 8, c) :: d else d) []

/-- The `cusip_prefix_6` dict, same embedding. -/
def cusip_prefix_6 (allowed : List String) : List (String × String) :=
  allowed.foldl (fun d c => if 6 ≤ strLen c then (strTake c 6, c) :: d else d) []

/-- `match_cusip(raw_cusip)` from the source, parameterized by the
watch-list (`allowed_cusips`, iterated in list order): normalize, exact
match, 8-char prefix table, 6-char prefix table, then containment in
either direction. -/
def match_cusip (allowed : List String) (raw : String) : Option String :=
  let c := pyUpper (pyStrip raw)
  if allowed.contains c then some c
  else
    match (if 8 ≤ strLen c then (cusip_prefix_8 allowed).lookup (strTake c 8)
           else none) with
    | some w => some w
    | none =>
      match (if 6 ≤ strLen c then (cusip_prefix_6 allowed).lookup (strTake c 6)
             else none) with
      | some w => some w
      | none => allowed.find? (fun ac => isPre c.data ac.data || isPre ac.data c.data)

theorem lookup_mem {d : List (String × String)} {k v : String}
    (h : d.lookup k = some v) : (k, v) ∈ d := by
  induction d with
  | nil => simp [List.lookup] at h
  | cons p rest ih =>
    rw [List.lookup] at h
    by_cases hk : (k == p.1) = true
    · rw [hk] at h
      simp only [cond_true, Option.some_inj] at h
      have : p = (k, v) := by
        obtain ⟨p1, p2⟩ := p
        simp only at h hk
        rw [beq_iff_eq] at hk
        simp [← hk, ← h]
      simp [this]
    · rw [Bool.eq_false_iff.mpr hk] at h
      simp only [cond_false] at h
      exact List.mem_cons_of_mem _ (ih h)

/-- Fold invariant for a prefix dict: every binding maps the n-prefix of a
watch-list entry to that entry. -/
theorem prefixDict_sound_aux (n : Nat) (allowed : List String) :
    ∀ (l : List String) (acc : List (String × String)),
    (∀ c ∈ l, c ∈ allowed) →
    (∀ p ∈ acc, p.2 ∈ allowed ∧ n ≤ strLen p.2 ∧ strTake p.2 n = p.1) →
    ∀ p ∈ l.foldl
        (fun d c => if n ≤ strLen c then (strTake c n, c) :: d else d) acc,
      p.2 ∈ allowed ∧ n ≤ strLen p.2 ∧ strTake p.2 n = p.1 := by
  intro l
  induction l with
  | nil =>
    intro acc _ hacc p hp
    exact hacc p (by simpa using hp)
  | cons c rest ih =>
    intro acc hl hacc p hp
    simp only [List.foldl_cons] at hp
    refine ih _ (fun x hx => hl x (List.mem_cons_of_mem _ hx)) ?_ p hp
    intro q hq
    by_cases h8 : n ≤ strLen c
    · rw [if_pos h8] at hq
      rcases List.mem_cons.mp hq with h1 | h2
      · rw [h1]
        exact ⟨hl c (List.mem_cons_self _ _), h8, rfl⟩
      · exact hacc q h2
    · rw [if_neg h8] at hq
      exact hacc q hq

/-- A cons on an assoc list preserves lookup success. -/
theorem lookup_cons_isSome {d : List (String × String)} {k v p : String}
    (h : (d.lookup p).isSome) : ((((k, v)) :: d).lookup p).isSome := by
  rw [List.lookup]
  by_cases hk : (p == k) = true
  · simp [hk]
  · simp [Bool.eq_false_iff.mpr hk, h]

/-- Fold completeness for a prefix dict: if some watch-list entry has the
queried n-prefix, lookup succeeds. -/
theorem prefixDict_comp_aux (n : Nat) (p : String) :
    ∀ (l : List String) (acc : List (String × String)),
    ((∃ w ∈ l, n ≤ strLen w ∧ strTake w n = p) ∨ (acc.lookup p).isSome) →
    ((l.foldl
        (fun d c => if n ≤ strLen c then (strTake c n, c) :: d else d)
        acc).lookup p).isSome := by
  intro l
  induction l with
  | nil =>
    intro acc h
    rcases h with ⟨w, hw, _⟩ | h
    · exact absurd hw (by simp)
    · simpa using h
  | cons c rest ih =>
    intro acc h
    simp only [List.foldl_cons]
    apply ih
    rcases h with ⟨w, hw, hwl, hwp⟩ | h
    · rcases List.mem_cons.mp hw with h1 | h2
      · right
        rw [← h1, if_pos hwl, List.lookup]
        simp [← hwp]
      · exact Or.inl ⟨w, h2, hwl, hwp⟩
    · right
      by_cases h8 : n ≤ strLen c
      · rw [if_pos h8]
        exact lookup_cons_isSome h
      · rwa [if_neg h8]

theorem cusip_prefix_8_sound {allowed : List String} :
    ∀ p ∈ cusip_prefix_8 allowed,
      p.2 ∈ allowed ∧ 8 ≤ strLen p.2 ∧ strTake p.2 8 = p.1 :=
  prefixDict_sound_aux 8 allowed allowed [] (fun _ h => h) (by simp)

theorem cusip_prefix_6_sound {allowed : List String} :
    ∀ p ∈ cusip_prefix_6 allowed,
      p.2 ∈ allowed ∧ 6 ≤ strLen p.2 ∧ strTake p.2 6 = p.1 :=
  prefixDict_sound_aux 6 allowed allowed [] (fun _ h => h) (by simp)

theorem cusip_prefix_8_comp {allowed : List String} {w p : String}
    (hw : w ∈ allowed) (hl : 8 ≤ strLen w) (hp : strTake w 8 = p) :
    (((cusip_prefix_8 allowed)).lookup p).isSome :=
  prefixDict_comp_aux 8 p allowed [] (Or.inl ⟨w, hw, hl, hp⟩)

theorem cusip_prefix_6_comp {allowed : List String} {w p : String}
    (hw : w ∈ allowed) (hl : 6 ≤ strLen w) (hp : strTake w 6 = p) :
    (((cusip_prefix_6 allowed)).lookup p).isSome :=
  prefixDict_comp_aux 6 p allowed [] (Or.inl ⟨w, hw, hl, hp⟩)

/-- C6 — `match_cusip` returns the normalized identifier itself when it is
on the watch-list; otherwise a watch-list entry whose 8-character prefix
equals the identifier's first 8 characters when one exists; otherwise a
watch-list entry agreeing on the first 6 characters when one exists;
otherwise the first watch-list entry related by literal prefix containment
in either direction, or `none`; every returned value is a watch-list
entry.  In particular, with watch-list `["037833100"]`, reported
`"03783310"` and `"037833"` both match to `"037833100"`. -/
theorem c6_match_cusip_cascade :
    (∀ (allowed : List String) (raw : String),
      (pyUpper (pyStrip raw) ∈ allowed →
        match_cusip allowed raw = some (pyUpper (pyStrip raw))) ∧
      (∀ w, match_cusip allowed raw = some w → w ∈ allowed) ∧
      (pyUpper (pyStrip raw) ∉ allowed →
        8 ≤ strLen (pyUpper (pyStrip raw)) →
        (∃ w ∈ allowed, 8 ≤ strLen w ∧
          strTake w 8 = strTake (pyUpper (pyStrip raw)) 8) →
        ∃ w', match_cusip allowed raw = some w' ∧ w' ∈ allowed ∧
          strTake w' 8 = strTake (pyUpper (pyStrip raw)) 8) ∧
      (pyUpper (pyStrip raw) ∉ allowed →
        (8 ≤ strLen (pyUpper (pyStrip raw)) →
          (cusip_prefix_8 allowed).lookup
            (strTake (pyUpper (pyStrip raw)) 8) = none) →
        6 ≤ strLen (pyUpper (pyStrip raw)) →
        (∃ w ∈ allowed, 6 ≤ strLen w ∧
          strTake w 6 = strTake (pyUpper (pyStrip raw)) 6) →
        ∃ w', match_cusip allowed raw = some w' ∧ w' ∈ allowed ∧
          strTake w' 6 = strTake (pyUpper (pyStrip raw)) 6) ∧
      (pyUpper (pyStrip raw) ∉ allowed →
        (8 ≤ strLen (pyUpper (pyStrip raw)) →
          (cusip_prefix_8 allowed).lookup
            (strTake (pyUpper (pyStrip raw)) 8) = none) →
        (6 ≤ strLen (pyUpper (pyStrip raw)) →
          (cusip_prefix_6 allowed).lookup
            (strTake (pyUpper (pyStrip raw)) 6) = none) →
        match_cusip allowed raw =
          allowed.find? (fun ac =>
            isPre (pyUpper (pyStrip raw)).data ac.data ||
            isPre ac.data (pyUpper (pyStrip raw)).data))) ∧
    match_cusip ["037833100"] "03783310" = some "037833100" ∧
    match_cusip ["037833100"] "037833" = some "037833100" := by
  refine ⟨?_, by decide, by decide⟩
  intro allowed raw
  set c := pyUpper (pyStrip raw) with hc
  have hunfold : match_cusip allowed raw =
      (if allowed.contains c then some c
       else
        match (if 8 ≤ strLen c then (cusip_prefix_8 allowed).lookup (strTake c 8)
               else none) with
        | some w => some w
        | none =>
          match (if 6 ≤ strLen c then
                   (cusip_prefix_6 allowed).lookup (strTake c 6)
                 else none) with
          | some w => some w
          | none => allowed.find? (fun ac => isPre c.data ac.data ||
              isPre ac.data c.data)) := rfl
  refine ⟨?_, ?_, ?_, ?_, ?_⟩
  · intro hmem
    rw [hunfold, if_pos (List.elem_eq_true_of_mem hmem)]
  · intro w hw
    rw [hunfold] at hw
    by_cases hmem : allowed.contains c
    · rw [if_pos hmem] at hw
      exact (Option.some_inj.mp hw) ▸ List.mem_of_elem_eq_true hmem
    · rw [if_neg (by simpa using hmem)] at hw
      match h8 : (if 8 ≤ strLen c then
          (cusip_prefix_8 allowed).lookup (strTake c 8) else none) with
      | some w8 =>
          rw [h8] at hw
          simp only [Option.some_inj] at hw
          subst hw
          by_cases hl8 : 8 ≤ strLen c
          · rw [if_pos hl8] at h8
            exact (cusip_prefix_8_sound _ (lookup_mem h8)).1
          · rw [if_neg hl8] at h8
            exact absurd h8 (by simp)
      | none =>
          rw [h8] at hw
          match h6 : (if 6 ≤ strLen c then
              (cusip_prefix_6 allowed).lookup (strTake c 6) else none) with
          | some w6 =>
              rw [h6] at hw
              simp only [Option.some_inj] at hw
              subst hw
              by_cases hl6 : 6 ≤ strLen c
              · rw [if_pos hl6] at h6
                exact (cusip_prefix_6_sound _ (lookup_mem h6)).1
              · rw [if_neg hl6] at h6
                exact absurd h6 (by simp)
          | none =>
              rw [h6] at hw
              exact List.mem_of_find?_eq_some hw
  · intro hnmem hl8 ⟨w, hw, hwl, hwp⟩
    have hsome := cusip_prefix_8_comp hw hwl hwp
    match h8 : (cusip_prefix_8 allowed).lookup (strTake c 8) with
    | none => rw [h8] at hsome; exact absurd hsome (by simp)
    | some w' =>
        refine ⟨w', ?_, (cusip_prefix_8_sound _ (lookup_mem h8)).1,
          (cusip_prefix_8_sound _ (lookup_mem h8)).2.2⟩
        rw [hunfold, if_neg (by simpa using hnmem), if_pos hl8, h8]
  · intro hnmem h8f hl6 ⟨w, hw, hwl, hwp⟩
    have hsome := cusip_prefix_6_comp hw hwl hwp
    match h6 : (cusip_prefix_6 allowed).lookup (strTake c 6) with
    | none => rw [h6] at hsome; exact absurd hsome (by simp)
    | some w' =>
        refine ⟨w', ?_, (cusip_prefix_6_sound _ (lookup_mem h6)).1,
          (cusip_prefix_6_sound _ (lookup_mem h6)).2.2⟩
        rw [hunfold, if_neg (by simpa using hnmem)]
        have h8e : (if 8 ≤ strLen c then
            (cusip_prefix_8 allowed).lookup (strTake c 8) else none) = none := by
          by_cases hl8 : 8 ≤ strLen c
          · rw [if_pos hl8]
            exact h8f hl8
          · rw [if_neg hl8]
        rw [h8e, if_pos hl6, h6]
  · intro hnmem h8f h6f
    rw [hunfold, if_neg (by simpa using hnmem)]
    have h8e : (if 8 ≤ strLen c then
        (cusip_prefix_8 allowed).lookup (strTake c 8) else none) = none := by
      by_cases hl8 : 8 ≤ strLen c
      · rw [if_pos hl8]
        exact h8f hl8
      · rw [if_neg hl8]
    have h6e : (if 6 ≤ strLen c then
        (cusip_prefix_6 allowed).lookup (strTake c 6) else none) = none := by
      by_cases hl6 : 6 ≤ strLen c
      · rw [if_pos hl6]
        exact h6f hl6
      · rw [if_neg hl6]
    rw [h8e, h6e]

/-- Witness for C6: the spec's own example, watch-list `["037833100"]`,
exercised through the theorem's exact-match and prefix branches. -/
theorem c6_witness :
    (∃ w', match_cusip ["037833100"] "03783310" = some w' ∧
      w' ∈ ["037833100"] ∧
      strTake w' 8 = strTake (pyUpper (pyStrip "03783310")) 8) ∧
    match_cusip ["037833100"] "037833100" = some "037833100" :=
  ⟨(c6_match_cusip_cascade.1 ["037833100"] "03783310").2.2.1
      (by decide) (by decide) ⟨"037833100", by decide, by decide, by decide⟩,
   (c6_match_cusip_cascade.1 ["037833100"] "037833100").1 (by decide)⟩

-- ═══════════════ Index scanning (`parse_index_text`, discovery) ═══════════════

/-- The target disclosure forms, verbatim from the source (`FORMS`). -/
def FORMS : List String := ["13F-HR", "13F-HR/A"]

/-- One parsed index row (`{cik, form, filing_date, filename}`). -/
structure IndexRow where
  cik : String
  form : String
  filing_date : String
  filename : String
deriving DecidableEq, Repr

/-- Decimal digit character. -/
def digitChar (n : Nat) : Char := Char.ofNat (48 + n)

/-- Decimal rendering of a natural number (`str(n)`), fuel-structured so it
reduces in the kernel. -/
def natDigitsAux : Nat → Nat → List Char
  | 0, _ => []
  | fuel + 1, n =>
      if n < 10 then [digitChar n]
      else natDigitsAux fuel (n / 10) ++ [digitChar (n % 10)]

/-- `str(n)` for a natural number. -/
def natStr (n : Nat) : List Char := natDigitsAux (n + 1) n

/-- `str.zfill(n)`: left-pad with zeros to width `n`. -/
def pyZfill (n : Nat) (l : List Char) : List Char :=
  if n ≤ l.length then l else List.replicate (n - l.length) '0' ++ l

/-- `int(s)` on the stripped CIK field.  The rows reaching this point carry
plain digit strings; Python `int` also accepts signs and underscores, but
whatever value it produced would still face the same membership filter, so
the digit-string case is the faithful core. -/
def pyParseInt (l : List Char) : Option Nat :=
  if allDigits l then some (digitsToNat l) else none

/-- Processing of one data line of `parse_index_text` (reached once the
header heuristic has fired): skip separator lines, split on `|`, require
five fields, filter by form type, normalize the CIK to 10-digit zero-padded
form, filter by target CIKs. -/
def lineRow (s : List Char) (ciks forms : List String) : Option IndexRow :=
  if isPre ['-'] s then none
  else
    match chsplit '|' s with
    | p0 :: _ :: p2 :: p3 :: p4 :: _ =>
        let form : String := ⟨stripList p2⟩
        if forms.contains form then
          match pyParseInt (stripList p0) with
          | some n =>
              let padded : String := ⟨pyZfill 10 (natStr n)⟩
              if ciks.contains padded then
                some ⟨padded, form, ⟨stripList p3⟩, ⟨stripList p4⟩⟩
              else none
          | none => none
        else none
    | _ => none

/-- The line loop of `parse_index_text`, with its `header_found` state: skip
blank lines; before the header, accept a header line (has `|` and `CIK` or
`Form Type`), skip separator lines, or treat a line with ≥ 4 pipes and a
numeric first field as implicit-header data; after the header every line
goes through `lineRow`.  (The source's `data_started` flag is written but
never read, so it is omitted.) -/
def pit_go (ciks forms : List String) :
    List (List Char) → Bool → List IndexRow
  | [], _ => []
  | line :: rest, header_found =>
    let s := stripList line
    if s.isEmpty then pit_go ciks forms rest header_found
    else if header_found then
      match lineRow s ciks forms with
      | some r => r :: pit_go ciks forms rest true
      | none => pit_go ciks forms rest true
    else
      if hasSub ['|'] s &&
          (hasSub ("CIK").data s || hasSub ("Form Type").data s) then
        pit_go ciks forms rest true
      else if isPre ['-'] s then pit_go ciks forms rest false
      else if 4 ≤ s.count '|' && allDigits (stripList (chsplit '|' s).headI) then
        match lineRow s ciks forms with
        | some r => r :: pit_go ciks forms rest true
        | none => pit_go ciks forms rest true
      else pit_go ciks forms rest false

/-- `parse_index_text(text, target_ciks, target_forms)` from the source. -/
def parse_index_text (text : String) (target_ciks target_forms : List String) :
    List IndexRow :=
  pit_go target_ciks target_forms (chsplit '\n' text.data) false

/-- Leading `\d{10}-\d{2}-\d{6}` pattern test (`re.match`, prefix
semantics). -/
def accPattern (l : List Char) : Bool :=
  ((l.take 10).length == 10 && (l.take 10).all isDigitB) &&
  (match l.drop 10 with
   | '-' :: a :: b :: '-' :: c1 :: c2 :: c3 :: c4 :: c5 :: c6 :: _ =>
       [a, b, c1, c2, c3, c4, c5, c6].all isDigitB
   | _ => false)

/-- `_accession_from_filename` from the source: last path component, drop
the extension, keep a dashed 20-char accession, else re-dash an undashed
≥ 18-digit string, else return as-is. -/
def _accession_from_filename (filename : String) : String :=
  let base := (chsplit '/' filename.data).getLastD []
  let nodash := (chsplit '.' base).headI
  if accPattern nodash then ⟨nodash.take 20⟩
  else
    let digits_only := nodash.filter isDigitB
    if 18 ≤ digits_only.length then
      ⟨digits_only.take 10 ++ '-' :: ((digits_only.drop 10).take 2 ++
        '-' :: (digits_only.drop 12).take 6)⟩
    else ⟨nodash⟩

/-- `_cik_int_from_filename`: the path component after the first `data`
component (when one follows), else the empty string. -/
def cikIntGo : List (List Char) → List Char
  | d :: nxt :: rest =>
      if d == ("data").data then nxt else cikIntGo (nxt :: rest)
  | _ => []

/-- `_cik_int_from_filename(filename)` from the source. -/
def _cik_int_from_filename (filename : String) : String :=
  ⟨cikIntGo (chsplit '/' filename.data)⟩

/-- `cik_int_str(cik)`: strip non-digits, parse, re-render (used here only
on zero-padded digit strings, where `int` cannot fail). -/
def cik_int_str (cik : String) : String :=
  ⟨natStr (digitsToNat (cik.data.filter isDigitB))⟩

/-- A discovered filing (`{cik, form, filing_date, filename, accession,
cik_int}`). -/
structure Filing where
  cik : String
  form : String
  filing_date : String
  filename : String
  accession : String
  cik_int : String
deriving DecidableEq, Repr

/-- The per-index-file body of `discover_filings_via_full_index`, with the
network, decoding and diagnostics stripped away: parse the index text,
enrich each entry with the derived accession and integer CIK, filter by
`filing_date >= start_filing` (unparseable dates fall back to
`dt.date.min`). -/
def discover_one (t : String) (all_ciks forms : List String)
    (start_filing : Date) : List Filing :=
  ((parse_index_text t all_ciks forms).map (fun e =>
      { cik := e.cik, form := e.form, filing_date := e.filing_date,
        filename := e.filename,
        accession := _accession_from_filename e.filename,
        cik_int :=
          (if _cik_int_from_filename e.filename = ""
           then cik_int_str e.cik else _cik_int_from_filename e.filename) :
        Filing })).filter
    (fun e => dateLeB start_filing ((parse_date e.filing_date).getD dateMin))

/-- `discover_filings_via_full_index` over a given list of quarterly index
texts: the union (in scan order) of the filtered, enriched entries. -/
def discover_filings_from_texts (texts : List String)
    (all_ciks forms : List String) (start_filing : Date) : List Filing :=
  (texts.map (fun t => discover_one t all_ciks forms start_filing)).flatten

theorem lineRow_sound {s : List Char} {ciks forms : List String} {r : IndexRow}
    (h : lineRow s ciks forms = some r) : r.form ∈ forms ∧ r.cik ∈ ciks := by
  unfold lineRow at h
  by_cases hd : isPre ['-'] s = true
  · rw [if_pos hd] at h
    exact absurd h (by simp)
  · rw [if_neg hd] at h
    match hp : chsplit '|' s with
    | [] | [_] | [_, _] | [_, _, _] | [_, _, _, _] =>
        rw [hp] at h
        exact absurd h (by simp)
    | p0 :: p1 :: p2 :: p3 :: p4 :: ps =>
        rw [hp] at h
        simp only at h
        by_cases hf : forms.contains (⟨stripList p2⟩ : String) = true
        · rw [if_pos hf] at h
          match hn : pyParseInt (stripList p0) with
          | none =>
              rw [hn] at h
              exact absurd h (by simp)
          | some n =>
              rw [hn] at h
              simp only at h
              by_cases hc :
                  ciks.contains (⟨pyZfill 10 (natStr n)⟩ : String) = true
              · rw [if_pos hc] at h
                have hr := Option.some_inj.mp h
                rw [← hr]
                exact ⟨List.mem_of_elem_eq_true hf, List.mem_of_elem_eq_true hc⟩
              · rw [if_neg hc] at h
                exact absurd h (by simp)
        · rw [if_neg hf] at h
          exact absurd h (by simp)

theorem pit_go_sound {ciks forms : List String} :
    ∀ (lines : List (List Char)) (hf : Bool) (r : IndexRow),
    r ∈ pit_go ciks forms lines hf → r.form ∈ forms ∧ r.cik ∈ ciks := by
  intro lines
  induction lines with
  | nil =>
    intro hf r hr
    simp [pit_go] at hr
  | cons line rest ih =>
    intro hf r hr
    unfold pit_go at hr
    by_cases he : (stripList line).isEmpty = true
    · rw [if_pos he] at hr
      exact ih hf r hr
    · rw [if_neg he] at hr
      by_cases hhf : hf
      · rw [if_pos hhf] at hr
        match hl : lineRow (stripList line) ciks forms with
        | some r' =>
            rw [hl] at hr
            rcases List.mem_cons.mp hr with h1 | h2
            · rw [h1]
              exact lineRow_sound hl
            · exact ih true r h2
        | none =>
            rw [hl] at hr
            exact ih true r hr
      · rw [if_neg hhf] at hr
        by_cases hh1 : (hasSub ['|'] (stripList line) &&
            (hasSub ("CIK").data (stripList line) ||
             hasSub ("Form Type").data (stripList line))) = true
        · rw [if_pos hh1] at hr
          exact ih true r hr
        · rw [if_neg hh1] at hr
          by_cases hh2 : isPre ['-'] (stripList line) = true
          · rw [if_pos hh2] at hr
            exact ih false r hr
          · rw [if_neg hh2] at hr
            by_cases hh3 : (4 ≤ (stripList line).count '|' &&
                allDigits (stripList (chsplit '|' (stripList line)).headI)) = true
            · rw [if_pos hh3] at hr
              match hl : lineRow (stripList line) ciks forms with
              | some r' =>
                  rw [hl] at hr
                  rcases List.mem_cons.mp hr with h1 | h2
                  · rw [h1]
                    exact lineRow_sound hl
                  · exact ih true r h2
              | none =>
                  rw [hl] at hr
                  exact ih true r hr
            · rw [if_neg hh3] at hr
              exact ih false r hr

/-- C8 — No row with a form type outside the target set, or a normalized
entity id outside the target set, or a filing date before the lower bound,
ever appears in the discovered filing output, for any scanned index
texts. -/
theorem c8_discover_filter_sound (texts : List String)
    (all_ciks forms : List String) (start_filing : Date) :
    ∀ e ∈ discover_filings_from_texts texts all_ciks forms start_filing,
      e.form ∈ forms ∧ e.cik ∈ all_ciks ∧
      dateLeB start_filing ((parse_date e.filing_date).getD dateMin) = true := by
  intro e he
  unfold discover_filings_from_texts at he
  rw [List.mem_flatten] at he
  obtain ⟨l, hl, hel⟩ := he
  rw [List.mem_map] at hl
  obtain ⟨t, _, hlt⟩ := hl
  rw [← hlt] at hel
  unfold discover_one at hel
  rw [List.mem_filter] at hel
  obtain ⟨hmap, hdate⟩ := hel
  rw [List.mem_map] at hmap
  obtain ⟨row, hrow, hre⟩ := hmap
  have hs := pit_go_sound _ _ _ hrow
  rw [← hre]
  exact ⟨hs.1, hs.2, by rw [← hre] at hdate; exact hdate⟩

/-- Witness for C8: one concrete quarterly index text with a header line
and a matching Berkshire 13F-HR row; the discovered entry passes all three
filters. -/
theorem c8_witness :
    ({ cik := "0001067983", form := "13F-HR", filing_date := "2015-05-15",
       filename := "edgar/data/1067983/0001067983-15-000123.txt",
       accession := "0001067983-15-000123", cik_int := "1067983" } :
        Filing).form ∈ ["13F-HR", "13F-HR/A"] ∧
    ({ cik := "0001067983", form := "13F-HR", filing_date := "2015-05-15",
       filename := "edgar/data/1067983/0001067983-15-000123.txt",
       accession := "0001067983-15-000123", cik_int := "1067983" } :
        Filing).cik ∈ ["0001067983"] ∧
    dateLeB ⟨2015, 1, 1⟩
      ((parse_date "2015-05-15").getD dateMin) = true :=
  c8_discover_filter_sound
    ["CIK|Company Name|Form Type|Date Filed|Filename\n1067983|BERKSHIRE HATHAWAY INC|13F-HR|2015-05-15|edgar/data/1067983/0001067983-15-000123.txt\n"]
    ["0001067983"] ["13F-HR", "13F-HR/A"] ⟨2015, 1, 1⟩
    { cik := "0001067983", form := "13F-HR", filing_date := "2015-05-15",
      filename := "edgar/data/1067983/0001067983-15-000123.txt",
      accession := "0001067983-15-000123", cik_int := "1067983" }
    (by decide)

-- ═══════════════ Reconciler: de-duplication (`dedupe_raw`) ═══════════════

/-- Python string `<`: lexicographic comparison by code point. -/
def charsLt : List Char → List Char → Bool
  | [], [] => false
  | [], _ :: _ => true
  | _ :: _, [] => false
  | a :: as, b :: bs =>
      a.toNat < b.toNat || (a.toNat == b.toNat && charsLt as bs)

/-- Python string `<`. -/
def strLtB (a b : String) : Bool := charsLt a.data b.data

/-- Python `<` on ints, as a boolean. -/
def intLtB (a b : Int) : Bool := decide (a < b)

/-- Python `<` on list lengths, as a boolean. -/
def natLtB (a b : Nat) : Bool := decide (a < b)

/-- Python string `<=`. -/
def strLeB (a b : String) : Bool := strLtB a b || a == b

/-- One raw holding row as it reaches the Reconciler.  The script stores
the numeric fields as strings and coerces them with `safe_int` at every
use; they are represented here by that integer value directly.
`shares_outstanding` stays a string because the script only tests it for
(non-)emptiness and copies it. -/
structure Row where
  filer_cik : String
  report_date : String
  ticker : String
  accession : String
  form : String
  filing_date : String
  shares_held : Int
  value_usd_thousands : Int
  shares_outstanding : String
  mapped_cusip : String
deriving DecidableEq, Repr, Inhabited

/-- `_recency(form, filing_date, accession)` from the source: amendment
flag, parsed filing date (defaulting to 1900-01-01), accession string.
(The source's `accession or ""` is the identity on strings.) -/
def _recency (form filing_date accession : String) : Nat × Date × String :=
  (if form == "13F-HR/A" then 1 else 0,
   (parse_date filing_date).getD ⟨1900, 1, 1⟩,
   accession)

/-- Python `>` on `_recency` tuples (strict lexicographic). -/
def recLt (r1 r2 : Nat × Date × String) : Bool :=
  r1.1 < r2.1 || (r1.1 == r2.1 && (dateLtB r1.2.1 r2.2.1 ||
    (r1.2.1 == r2.2.1 && strLtB r1.2.2 r2.2.2)))

/-- The recency key of one accession group: computed from the group's
first row, as `_recency(acc_dict[acc][0]['form'], ..., acc)` in the
source. -/
def accKey (p : String × List Row) : Nat × Date × String :=
  _recency p.2.headI.form p.2.headI.filing_date p.1

/-- `groups[group_key][acc].append(r)`: append the row under its accession
key, creating the binding if absent (defaultdict). -/
def addAcc : List (String × List Row) → Row → List (String × List Row)
  | [], r => [(r.accession, [r])]
  | p :: rest, r =>
      if p.1 = r.accession then (p.1, p.2 ++ [r]) :: rest
      else p :: addAcc rest r

/-- One step of the grouping loop of `dedupe_raw`: file the row under
`(filer_cik, report_date, ticker)`, then under its accession. -/
def addRow (gs : List ((String × String × String) × List (String × List Row)))
    (r : Row) : List ((String × String × String) × List (String × List Row)) :=
  match gs with
  | [] => [((r.filer_cik, r.report_date, r.ticker), addAcc [] r)]
  | g :: rest =>
      if g.1 = (r.filer_cik, r.report_date, r.ticker) then
        (g.1, addAcc g.2 r) :: rest
      else g :: addRow rest r

/-- Step 1 of `dedupe_raw`: the nested `defaultdict` of groups, in
insertion order. -/
def dedupe_groups (rows : List Row) :
    List ((String × String × String) × List (String × List Row)) :=
  rows.foldl addRow []

/-- `max(acc_dict.keys(), key=lambda acc: _recency(...))`: Python `max`
keeps the first maximal element under the key ordering. -/
def bestAcc : List (String × List Row) → String × List Row
  | [] => ("", [])
  | a :: rest =>
      rest.foldl (fun best cand =>
        if recLt (accKey best) (accKey cand) then cand else best) a

/-- `max(acc_dict.keys(), key=lambda a: len(acc_dict[a]))`: the fallback
selection by row count. -/
def mostRows : List (String × List Row) → String × List Row
  | [] => ("", [])
  | a :: rest =>
      rest.foldl (fun best cand =>
        if natLtB best.2.length cand.2.length then cand else best) a

/-- Step 2 of `dedupe_raw` for one group: a single accession keeps all its
rows; otherwise the best-recency accession's rows, falling back to the
accession with the most rows if the best contributed none. -/
def groupKept (inner : List (String × List Row)) : List Row :=
  if inner.length = 1 then (inner.map (fun p => p.2)).flatten
  else
    let best := bestAcc inner
    if 0 < best.2.length then best.2
    else (mostRows inner).2

/-- `groupKept` with the fallback branch removed (claim C9 asserts the two
agree). -/
def groupKeptNF (inner : List (String × List Row)) : List Row :=
  if inner.length = 1 then (inner.map (fun p => p.2)).flatten
  else (bestAcc inner).2

/-- The final sort key ordering of `dedupe_raw`:
`(ticker, _sort_date(report_date), _sort_date(filing_date), accession)`. -/
def dedupeLe (a b : Row) : Bool :=
  strLtB a.ticker b.ticker ||
  (a.ticker == b.ticker &&
   (dateLtB (_sort_date a.report_date) (_sort_date b.report_date) ||
    (_sort_date a.report_date == _sort_date b.report_date &&
     (dateLtB (_sort_date a.filing_date) (_sort_date b.filing_date) ||
      (_sort_date a.filing_date == _sort_date b.filing_date &&
       strLeB a.accession b.accession)))))

/-- `dedupe_raw(rows)` from the source. -/
def dedupe_raw (rows : List Row) : List Row :=
  (((dedupe_groups rows).map (fun g => groupKept g.2)).flatten).mergeSort dedupeLe

/-- `dedupe_raw` with the unreachable fallback branch removed. -/
def dedupe_raw_nofallback (rows : List Row) : List Row :=
  (((dedupe_groups rows).map (fun g => groupKeptNF g.2)).flatten).mergeSort dedupeLe

-- ═══════════════ Reconciler: consolidation (`build_panel`) ═══════════════

/-- The per-filer accumulator of `build_panel`. -/
structure FilerInfo where
  shares : Int
  value : Int
  filing_date : String
  accession : String
  shares_outstanding : String
  mapped_cusip : String
deriving DecidableEq, Repr, Inhabited

/-- The defaultdict initial value for a filer. -/
def emptyInfo : FilerInfo := ⟨0, 0, "", "", "", ""⟩

/-- One row's contribution to its filer's accumulator: add shares and
value; keep the latest filing date/accession (note the `_sort_date("")`
sentinel is `9999-12-31`, so the strict `>` never fires against the
initial empty string); first non-empty shares-outstanding; first
mapped CUSIP once empty. -/
def updInfo (info : FilerInfo) (r : Row) : FilerInfo :=
  let info1 := { info with shares := info.shares + r.shares_held,
                           value := info.value + r.value_usd_thousands }
  let info2 :=
    if dateLtB (_sort_date info1.filing_date) (_sort_date r.filing_date) then
      { info1 with filing_date := r.filing_date, accession := r.accession }
    else info1
  let info3 :=
    if info2.shares_outstanding = "" ∧ r.shares_outstanding ≠ "" then
      { info2 with shares_outstanding := r.shares_outstanding }
    else info2
  if info3.mapped_cusip = "" then
    { info3 with mapped_cusip := r.mapped_cusip }
  else info3

/-- One step of the `by_filer` loop. -/
def addFiler : List (String × FilerInfo) → Row → List (String × FilerInfo)
  | [], r => [(r.filer_cik, updInfo emptyInfo r)]
  | p :: rest, r =>
      if p.1 = r.filer_cik then (p.1, updInfo p.2 r) :: rest
      else p :: addFiler rest r

/-- The `by_filer` dict of `build_panel`, in insertion order. -/
def by_filer (recs : List Row) : List (String × FilerInfo) :=
  recs.foldl addFiler []

/-- One step of the `by_key` grouping of `build_panel`. -/
def addKey (gs : List ((String × String) × List Row)) (r : Row) :
    List ((String × String) × List Row) :=
  match gs with
  | [] => [((r.ticker, r.report_date), [r])]
  | g :: rest =>
      if g.1 = (r.ticker, r.report_date) then (g.1, g.2 ++ [r]) :: rest
      else g :: addKey rest r

/-- The `by_key` dict of `build_panel`: rows grouped by
`(ticker, report_date)` in insertion order. -/
def by_key (rows : List Row) : List ((String × String) × List Row) :=
  rows.foldl addKey []

/-- `max(shares_list, key=lambda x: x[1])`: first maximal filer by share
total. -/
def maxFiler : List (String × FilerInfo) → String × FilerInfo
  | [] => ("", emptyInfo)
  | f :: rest =>
      rest.foldl (fun best cand =>
        if intLtB best.2.shares cand.2.shares then cand else best) f

/-- The `so / latest_fd / latest_acc / mcusip` accumulator of
`build_panel`'s final per-group loop. -/
structure PanelAcc where
  so : String
  lfd : String
  lacc : String
  mc : String
deriving DecidableEq, Repr

/-- One step of that loop: any non-empty shares-outstanding overwrites;
the latest filing date/accession is kept under strict `>` against the
`_sort_date` sentinel; the first non-empty mapped CUSIP is kept. -/
def accumStep (st : PanelAcc) (p : String × FilerInfo) : PanelAcc :=
  let st1 := if p.2.shares_outstanding ≠ "" then
      { st with so := p.2.shares_outstanding } else st
  let st2 := if dateLtB (_sort_date st1.lfd) (_sort_date p.2.filing_date) then
      { st1 with lfd := p.2.filing_date, lacc := p.2.accession } else st1
  if st2.mc = "" then { st2 with mc := p.2.mapped_cusip } else st2

/-- One consolidated output record of `build_panel`. -/
structure PanelRow where
  group : String
  ticker : String
  mapped_cusip : String
  report_date : String
  shares_held : Int
  value_usd_thousands : Int
  num_filer_ciks : Nat
  filer_ciks_used : String
  consolidation_note : String
  latest_filing_date : String
  latest_accession : String
  shares_outstanding : String
deriving DecidableEq, Repr

/-- The record built for one `(ticker, report_date)` group: single filer
uses its own totals; multiple filers take the maximal filer's shares and
that filer's value from the dict (`by_filer[max_fc]["value"]`). -/
def panelEntry (group : String) (key : String × String) (recs : List Row) :
    PanelRow :=
  let filers := by_filer recs
  let acc := filers.foldl accumStep ⟨"", "", "", ""⟩
  if filers.length = 1 then
    { group := group, ticker := key.1, mapped_cusip := acc.mc,
      report_date := key.2,
      shares_held := filers.headI.2.shares,
      value_usd_thousands := filers.headI.2.value,
      num_filer_ciks := filers.length,
      filer_ciks_used := String.intercalate ";" (filers.map (fun p => p.1)),
      consolidation_note := "SINGLE_FILER",
      latest_filing_date := acc.lfd, latest_accession := acc.lacc,
      shares_outstanding := acc.so }
  else
    { group := group, ticker := key.1, mapped_cusip := acc.mc,
      report_date := key.2,
      shares_held := (maxFiler filers).2.shares,
      value_usd_thousands :=
        ((filers.lookup (maxFiler filers).1).getD emptyInfo).value,
      num_filer_ciks := filers.length,
      filer_ciks_used := String.intercalate ";" (filers.map (fun p => p.1)),
      consolidation_note := "MAX_FILER(" ++ (maxFiler filers).1 ++ ")",
      latest_filing_date := acc.lfd, latest_accession := acc.lacc,
      shares_outstanding := acc.so }

/-- The output ordering of `build_panel`: `(ticker, _sort_date(report))`. -/
def panelLe (a b : PanelRow) : Bool :=
  strLtB a.ticker b.ticker ||
  (a.ticker == b.ticker &&
   (dateLtB (_sort_date a.report_date) (_sort_date b.report_date) ||
    _sort_date a.report_date == _sort_date b.report_date))

/-- `build_panel(group, raw_rows)` from the source. -/
def build_panel (group : String) (raw_rows : List Row) : List PanelRow :=
  ((by_key raw_rows).map (fun g => panelEntry group g.1 g.2)).mergeSort panelLe

/-- Sum of `shares_held` over one filer's rows in a group. -/
def sumShares (recs : List Row) (fc : String) : Int :=
  ((recs.filter (fun r => r.filer_cik == fc)).map (fun r => r.shares_held)).sum

/-- Sum of `value_usd_thousands` over one filer's rows in a group. -/
def sumValues (recs : List Row) (fc : String) : Int :=
  ((recs.filter (fun r => r.filer_cik == fc)).map
    (fun r => r.value_usd_thousands)).sum

/-- Code points determine characters. -/
theorem char_toNat_inj {a b : Char} (h : a.toNat = b.toNat) : a = b :=
  Char.eq_of_val_eq (UInt32.toNat.inj h)

theorem charsLt_trans : ∀ a b c : List Char,
    charsLt a b = true → charsLt b c = true → charsLt a c = true := by
  intro a
  induction a with
  | nil =>
    intro b c hab hbc
    cases b <;> cases c <;> simp_all [charsLt]
  | cons x xs ih =>
    intro b c hab hbc
    cases b with
    | nil => simp [charsLt] at hab
    | cons y ys =>
      cases c with
      | nil => simp [charsLt] at hbc
      | cons z zs =>
        simp only [charsLt, Bool.or_eq_true, Bool.and_eq_true,
          decide_eq_true_eq, beq_iff_eq] at *
        rcases hab with h1 | ⟨h1, h2⟩ <;> rcases hbc with h3 | ⟨h3, h4⟩
        · left; omega
        · left; omega
        · left; omega
        · right; exact ⟨by omega, ih _ _ h2 h4⟩

theorem charsLt_irrefl : ∀ a : List Char, charsLt a a = false := by
  intro a
  induction a with
  | nil => rfl
  | cons x xs ih => simp [charsLt, ih]

theorem charsLt_trichot : ∀ a b : List Char,
    charsLt a b = true ∨ charsLt b a = true ∨ a = b := by
  intro a
  induction a with
  | nil =>
    intro b
    cases b with
    | nil => right; right; rfl
    | cons y ys => left; rfl
  | cons x xs ih =>
    intro b
    cases b with
    | nil => right; left; rfl
    | cons y ys =>
      rcases Nat.lt_trichotomy x.toNat y.toNat with h | h | h
      · left
        simp [charsLt, h]
      · rcases ih ys with h2 | h2 | h2
        · left
          simp [charsLt, h, h2]
        · right; left
          simp [charsLt, h, h2]
        · right; right
          rw [char_toNat_inj h, h2]
      · right; left
        simp [charsLt, h]

theorem strLtB_trans (a b c : String) (h1 : strLtB a b = true)
    (h2 : strLtB b c = true) : strLtB a c = true :=
  charsLt_trans _ _ _ h1 h2

theorem strLtB_irrefl (a : String) : strLtB a a = false :=
  charsLt_irrefl a.data

theorem strLtB_trichot (a b : String) :
    strLtB a b = true ∨ strLtB b a = true ∨ a = b := by
  rcases charsLt_trichot a.data b.data with h | h | h
  · exact Or.inl h
  · exact Or.inr (Or.inl h)
  · right; right
    cases a; cases b
    simp only at h
    rw [h]

theorem dateLtB_trans (a b c : Date) (h1 : dateLtB a b = true)
    (h2 : dateLtB b c = true) : dateLtB a c = true := by
  obtain ⟨ay, am, ad⟩ := a
  obtain ⟨cy, cm, cd⟩ := b
  obtain ⟨ey, em, ed⟩ := c
  simp only [dateLtB, Bool.or_eq_true, Bool.and_eq_true, decide_eq_true_eq,
    beq_iff_eq] at *
  omega

theorem dateLtB_irrefl (a : Date) : dateLtB a a = false := by
  obtain ⟨ay, am, ad⟩ := a
  simp [dateLtB]

theorem dateLtB_trichot (a b : Date) :
    dateLtB a b = true ∨ dateLtB b a = true ∨ a = b := by
  obtain ⟨ay, am, ad⟩ := a
  obtain ⟨cy, cm, cd⟩ := b
  simp only [dateLtB, Bool.or_eq_true, Bool.and_eq_true, decide_eq_true_eq,
    beq_iff_eq, Date.mk.injEq]
  omega

theorem recLt_trans : ∀ x y z : Nat × Date × String,
    recLt x y = true → recLt y z = true → recLt x z = true := by
  rintro ⟨x1, xd, xs⟩ ⟨y1, yd, ys⟩ ⟨z1, zd, zs⟩ hxy hyz
  simp only [recLt, Bool.or_eq_true, Bool.and_eq_true, decide_eq_true_eq,
    beq_iff_eq] at *
  rcases hxy with h1 | ⟨he1, h2⟩
  · rcases hyz with g1 | ⟨ge1, _⟩
    · left; omega
    · left; omega
  · rcases hyz with g1 | ⟨ge1, g2⟩
    · left; omega
    · right
      refine ⟨by omega, ?_⟩
      rcases h2 with h2 | ⟨he2, h3⟩
      · rcases g2 with g2 | ⟨ge2, _⟩
        · left; exact dateLtB_trans _ _ _ h2 g2
        · left; rwa [← ge2]
      · rcases g2 with g2 | ⟨ge2, g3⟩
        · left; rwa [he2]
        · right; exact ⟨by rw [he2, ge2], strLtB_trans _ _ _ h3 g3⟩

theorem recLt_irrefl : ∀ x : Nat × Date × String, recLt x x = false := by
  rintro ⟨x1, xd, xs⟩
  simp [recLt, dateLtB_irrefl, strLtB_irrefl]

theorem recLt_trichot : ∀ x y : Nat × Date × String,
    recLt x y = true ∨ recLt y x = true ∨ x = y := by
  rintro ⟨x1, xd, xs⟩ ⟨y1, yd, ys⟩
  simp only [recLt, Bool.or_eq_true, Bool.and_eq_true, decide_eq_true_eq,
    beq_iff_eq, Prod.mk.injEq]
  rcases Nat.lt_trichotomy x1 y1 with h | h | h
  · left; left; exact h
  · rcases dateLtB_trichot xd yd with h2 | h2 | h2
    · left; right; exact ⟨h, Or.inl h2⟩
    · right; left; right; exact ⟨h.symm, Or.inl h2⟩
    · rcases strLtB_trichot xs ys with h3 | h3 | h3
      · left; right; exact ⟨h, Or.inr ⟨h2, h3⟩⟩
      · right; left; right; exact ⟨h.symm, Or.inr ⟨h2.symm, h3⟩⟩
      · right; right; exact ⟨h, h2, h3⟩
  · right; left; left; exact h

/-- Python `max(..., key=...)` as a left fold keeping the first maximal
element: the result is in the list, and nothing in the list is strictly
greater. -/
theorem foldl_max_spec {α κ : Type _} (key : α → κ) (lt : κ → κ → Bool)
    (htrans : ∀ x y z, lt x y = true → lt y z = true → lt x z = true)
    (hirr : ∀ x, lt x x = false)
    (htrich : ∀ x y, lt x y = true ∨ lt y x = true ∨ x = y) :
    ∀ (rest : List α) (a : α),
    (rest.foldl (fun b c => if lt (key b) (key c) then c else b) a) ∈ a :: rest ∧
    ∀ x ∈ a :: rest,
      lt (key (rest.foldl (fun b c => if lt (key b) (key c) then c else b) a))
        (key x) = false := by
  intro rest
  induction rest with
  | nil =>
    intro a
    refine ⟨List.mem_cons_self a [], ?_⟩
    intro x hx
    rcases List.mem_cons.mp hx with h | h
    · rw [h]
      exact hirr _
    · exact absurd h (by simp)
  | cons c rest ih =>
    intro a
    simp only [List.foldl_cons]
    by_cases hac : lt (key a) (key c) = true
    · rw [if_pos hac]
      obtain ⟨ihm, ihmax⟩ := ih c
      refine ⟨List.mem_cons_of_mem _ ihm, ?_⟩
      intro x hx
      rcases List.mem_cons.mp hx with hxa | hx'
      · rw [hxa]
        by_contra hcon
        rw [Bool.not_eq_false] at hcon
        have hfc := htrans _ _ _ hcon hac
        have := ihmax c (List.mem_cons_self _ _)
        rw [hfc] at this
        exact absurd this (by simp)
      · exact ihmax x hx'
    · rw [if_neg hac]
      obtain ⟨ihm, ihmax⟩ := ih a
      constructor
      · rcases List.mem_cons.mp ihm with h | h
        · rw [h]
          exact List.mem_cons_self _ _
        · exact List.mem_cons_of_mem _ (List.mem_cons_of_mem _ h)
      · intro x hx
        rcases List.mem_cons.mp hx with hxa | hx'
        · rw [hxa]
          exact ihmax a (List.mem_cons_self _ _)
        · rcases List.mem_cons.mp hx' with hxc | hx''
          · rw [hxc]
            rcases htrich (key a) (key c) with h1 | h1 | h1
            · exact absurd h1 hac
            · by_contra hcon
              rw [Bool.not_eq_false] at hcon
              have hfa := htrans _ _ _ hcon h1
              have := ihmax a (List.mem_cons_self _ _)
              rw [hfa] at this
              exact absurd this (by simp)
            · rw [← h1]
              exact ihmax a (List.mem_cons_self _ _)
          · exact ihmax x (List.mem_cons_of_mem _ hx'')

/-- All the rows filed under one group of the dedupe grouping. -/
def groupRows (g : (String × String × String) × List (String × List Row)) :
    List Row :=
  (g.2.map (fun p => p.2)).flatten

/-- `addAcc` preserves the per-entry invariant: non-empty row lists whose
rows come from `S` and carry the entry's accession key. -/
theorem addAcc_entries {S : List Row} {inner : List (String × List Row)}
    {r : Row} (hr : r ∈ S)
    (h : ∀ a ∈ inner, a.2 ≠ [] ∧ ∀ x ∈ a.2, x ∈ S ∧ x.accession = a.1) :
    ∀ a ∈ addAcc inner r, a.2 ≠ [] ∧ ∀ x ∈ a.2, x ∈ S ∧ x.accession = a.1 := by
  induction inner with
  | nil =>
    intro a ha
    simp only [addAcc, List.mem_singleton] at ha
    rw [ha]
    refine ⟨by simp, ?_⟩
    intro x hx
    rw [List.mem_singleton] at hx
    rw [hx]
    exact ⟨hr, rfl⟩
  | cons p rest ih =>
    intro a ha
    unfold addAcc at ha
    by_cases hp : p.1 = r.accession
    · rw [if_pos hp] at ha
      rcases List.mem_cons.mp ha with h1 | h2
      · rw [h1]
        obtain ⟨hne, hall⟩ := h p (List.mem_cons_self _ _)
        refine ⟨by simp, ?_⟩
        intro x hx
        rcases List.mem_append.mp hx with hx1 | hx2
        · exact hall x hx1
        · rw [List.mem_singleton] at hx2
          rw [hx2]
          exact ⟨hr, hp.symm⟩
      · exact h a (List.mem_cons_of_mem _ h2)
    · rw [if_neg hp] at ha
      rcases List.mem_cons.mp ha with h1 | h2
      · rw [h1]
        exact h p (List.mem_cons_self _ _)
      · exact ih (fun a ha => h a (List.mem_cons_of_mem _ ha)) a h2

/-- The keys of `addAcc`: unchanged when the accession is present, appended
otherwise. -/
theorem addAcc_keys (inner : List (String × List Row)) (r : Row) :
    (addAcc inner r).map (fun p => p.1) =
      if r.accession ∈ inner.map (fun p => p.1) then inner.map (fun p => p.1)
      else inner.map (fun p => p.1) ++ [r.accession] := by
  induction inner with
  | nil => simp [addAcc]
  | cons p rest ih =>
    unfold addAcc
    by_cases hp : p.1 = r.accession
    · rw [if_pos hp]
      simp [hp]
    · rw [if_neg hp]
      simp only [List.map_cons, ih]
      by_cases hm : r.accession ∈ rest.map (fun p => p.1)
      · rw [if_pos hm, if_pos (by simp [hm])]
      · rw [if_neg hm, if_neg (by
          simp only [List.mem_cons]
          rintro (h | h)
          · exact hp h.symm
          · exact hm h)]
        simp

/-- `addAcc` keeps accession keys duplicate-free. -/
theorem addAcc_nodup {inner : List (String × List Row)} {r : Row}
    (h : (inner.map (fun p => p.1)).Nodup) :
    ((addAcc inner r).map (fun p => p.1)).Nodup := by
  rw [addAcc_keys]
  by_cases hm : r.accession ∈ inner.map (fun p => p.1)
  · rwa [if_pos hm]
  · rw [if_neg hm]
    simp [List.nodup_append, h, hm]

/-- `addAcc` never returns an empty inner list. -/
theorem addAcc_ne_nil (inner : List (String × List Row)) (r : Row) :
    addAcc inner r ≠ [] := by
  cases inner with
  | nil => simp [addAcc]
  | cons p rest =>
    unfold addAcc
    by_cases hp : p.1 = r.accession
    · rw [if_pos hp]; simp
    · rw [if_neg hp]; simp

/-- The full invariant of the dedupe grouping, for one `addRow` step. -/
theorem addRow_inv {S : List Row}
    {gs : List ((String × String × String) × List (String × List Row))}
    {r : Row} (hr : r ∈ S)
    (h : ∀ g ∈ gs, g.2 ≠ [] ∧ (g.2.map (fun p => p.1)).Nodup ∧
      ∀ a ∈ g.2, a.2 ≠ [] ∧ ∀ x ∈ a.2, x ∈ S ∧ x.accession = a.1) :
    ∀ g ∈ addRow gs r, g.2 ≠ [] ∧ (g.2.map (fun p => p.1)).Nodup ∧
      ∀ a ∈ g.2, a.2 ≠ [] ∧ ∀ x ∈ a.2, x ∈ S ∧ x.accession = a.1 := by
  induction gs with
  | nil =>
    intro g hg
    simp only [addRow, List.mem_singleton] at hg
    rw [hg]
    refine ⟨by simp [addAcc], by simp [addAcc], ?_⟩
    exact addAcc_entries hr (by simp)
  | cons g0 rest ih =>
    intro g hg
    unfold addRow at hg
    by_cases hk : g0.1 = (r.filer_cik, r.report_date, r.ticker)
    · rw [if_pos hk] at hg
      rcases List.mem_cons.mp hg with h1 | h2
      · rw [h1]
        obtain ⟨_, hnd, hent⟩ := h g0 (List.mem_cons_self _ _)
        exact ⟨addAcc_ne_nil _ _, addAcc_nodup hnd, addAcc_entries hr hent⟩
      · exact h g (List.mem_cons_of_mem _ h2)
    · rw [if_neg hk] at hg
      rcases List.mem_cons.mp hg with h1 | h2
      · rw [h1]
        exact h g0 (List.mem_cons_self _ _)
      · exact ih (fun g hg => h g (List.mem_cons_of_mem _ hg)) g h2

/-- The dedupe grouping invariant: every group is non-empty, its accession
keys are duplicate-free, every accession's row list is non-empty, and its
rows are input rows carrying exactly that accession. -/
theorem dedupe_groups_inv (rows : List Row) :
    ∀ g ∈ dedupe_groups rows, g.2 ≠ [] ∧ (g.2.map (fun p => p.1)).Nodup ∧
      ∀ a ∈ g.2, a.2 ≠ [] ∧ ∀ x ∈ a.2, x ∈ rows ∧ x.accession = a.1 := by
  have haux : ∀ (l : List Row)
      (acc : List ((String × String × String) × List (String × List Row))),
      (∀ x ∈ l, x ∈ rows) →
      (∀ g ∈ acc, g.2 ≠ [] ∧ (g.2.map (fun p => p.1)).Nodup ∧
        ∀ a ∈ g.2, a.2 ≠ [] ∧ ∀ x ∈ a.2, x ∈ rows ∧ x.accession = a.1) →
      ∀ g ∈ l.foldl addRow acc, g.2 ≠ [] ∧ (g.2.map (fun p => p.1)).Nodup ∧
        ∀ a ∈ g.2, a.2 ≠ [] ∧ ∀ x ∈ a.2, x ∈ rows ∧ x.accession = a.1 := by
    intro l
    induction l with
    | nil =>
      intro acc _ hacc
      simpa using hacc
    | cons r l ih =>
      intro acc hl hacc
      simp only [List.foldl_cons]
      exact ih _ (fun x hx => hl x (List.mem_cons_of_mem _ hx))
        (addRow_inv (hl r (List.mem_cons_self _ _)) hacc)
  exact haux rows [] (fun x hx => hx) (by simp)

/-- `addAcc` adds exactly the new row to a group's rows, up to order. -/
theorem flatI_addAcc (inner : List (String × List Row)) (r : Row) :
    List.Perm ((addAcc inner r).map (fun p => p.2)).flatten
      ((inner.map (fun p => p.2)).flatten ++ [r]) := by
  induction inner with
  | nil => simp [addAcc]
  | cons p rest ih =>
    unfold addAcc
    by_cases hp : p.1 = r.accession
    · rw [if_pos hp]
      simp only [List.map_cons, List.flatten_cons, List.append_assoc]
      exact List.Perm.append_left _ List.perm_append_comm
    · rw [if_neg hp]
      simp only [List.map_cons, List.flatten_cons, List.append_assoc]
      exact List.Perm.append_left _ ih

/-- `addRow` adds exactly the new row to the grouping's rows, up to
order. -/
theorem flatAll_addRow
    (gs : List ((String × String × String) × List (String × List Row)))
    (r : Row) :
    List.Perm ((addRow gs r).map groupRows).flatten
      ((gs.map groupRows).flatten ++ [r]) := by
  induction gs with
  | nil => simp [addRow, groupRows, addAcc]
  | cons g rest ih =>
    unfold addRow
    by_cases hk : g.1 = (r.filer_cik, r.report_date, r.ticker)
    · rw [if_pos hk]
      simp only [List.map_cons, List.flatten_cons, groupRows,
        List.append_assoc]
      refine (List.Perm.append_right _ (flatI_addAcc g.2 r)).trans ?_
      rw [List.append_assoc]
      exact List.Perm.append_left _ List.perm_append_comm
    · rw [if_neg hk]
      simp only [List.map_cons, List.flatten_cons, List.append_assoc]
      exact List.Perm.append_left _ ih

/-- The grouping fold partitions its input: flattening all groups is a
permutation of the accumulated rows. -/
theorem flatAll_foldl (l : List Row) :
    ∀ (acc : List ((String × String × String) × List (String × List Row))),
    List.Perm ((l.foldl addRow acc).map groupRows).flatten
      ((acc.map groupRows).flatten ++ l) := by
  induction l with
  | nil =>
    intro acc
    simp
  | cons r l ih =>
    intro acc
    simp only [List.foldl_cons]
    refine (ih _).trans ?_
    refine (List.Perm.append_right _ (flatAll_addRow acc r)).trans ?_
    exact List.Perm.of_eq (by simp)

/-- The dedupe grouping partitions the input rows. -/
theorem dedupe_groups_perm (rows : List Row) :
    List.Perm ((dedupe_groups rows).map groupRows).flatten rows := by
  have h := flatAll_foldl rows []
  simpa [dedupe_groups] using h

/-- The best-recency accession is one of the group's accessions and none
outranks it. -/
theorem bestAcc_spec (inner : List (String × List Row)) (hne : inner ≠ []) :
    bestAcc inner ∈ inner ∧
    ∀ x ∈ inner, recLt (accKey (bestAcc inner)) (accKey x) = false := by
  match inner with
  | [] => exact absurd rfl hne
  | a :: rest =>
    exact foldl_max_spec accKey recLt recLt_trans recLt_irrefl recLt_trichot
      rest a

/-- The maximal filer is one of the filers and none has more shares. -/
theorem maxFiler_spec (filers : List (String × FilerInfo)) (hne : filers ≠ []) :
    maxFiler filers ∈ filers ∧
    ∀ p ∈ filers,
      intLtB (maxFiler filers).2.shares p.2.shares = false := by
  match filers with
  | [] => exact absurd rfl hne
  | f :: rest =>
    exact foldl_max_spec (fun p => p.2.shares) intLtB
      (fun x y z h1 h2 => by
        simp only [intLtB, decide_eq_true_eq] at *
        omega)
      (fun x => by simp [intLtB])
      (fun x y => by
        simp only [intLtB, decide_eq_true_eq]
        omega)
      rest f

/-- C9 — Every accession key in a dedupe group maps to at least one row by
construction, so the best-recency accession always contributes a row and
the fallback branch (most-rows accession) is unreachable: `dedupe_raw`
equals the variant without the fallback. -/
theorem c9_no_fallback (rows : List Row) :
    (∀ g ∈ dedupe_groups rows, ∀ a ∈ g.2, a.2 ≠ []) ∧
    dedupe_raw rows = dedupe_raw_nofallback rows := by
  have hinv := dedupe_groups_inv rows
  refine ⟨fun g hg a ha => ((hinv g hg).2.2 a ha).1, ?_⟩
  unfold dedupe_raw dedupe_raw_nofallback
  congr 1
  congr 1
  apply List.map_congr_left
  intro g hg
  obtain ⟨hgne, _, hent⟩ := hinv g hg
  unfold groupKept groupKeptNF
  by_cases h1 : g.2.length = 1
  · rw [if_pos h1, if_pos h1]
  · rw [if_neg h1, if_neg h1]
    have hbest := (bestAcc_spec g.2 hgne).1
    have hlen : (bestAcc g.2).2 ≠ [] := (hent _ hbest).1
    rw [if_pos (by
      cases hb : (bestAcc g.2).2 with
      | nil => exact absurd hb hlen
      | cons x xs => simp [hb])]

/-- A single original filing's row, used in concrete instances. -/
def exSolo : Row :=
  { filer_cik := "0001", report_date := "2015-03-31", ticker := "AAPL",
    accession := "A1", form := "13F-HR", filing_date := "2015-05-01",
    shares_held := 1, value_usd_thousands := 1,
    shares_outstanding := "", mapped_cusip := "" }

/-- The amendment row superseding `exSolo`'s filing, used in concrete
instances. -/
def exAmend : Row :=
  { filer_cik := "0001", report_date := "2015-03-31", ticker := "AAPL",
    accession := "A2", form := "13F-HR/A", filing_date := "2015-06-01",
    shares_held := 2, value_usd_thousands := 2,
    shares_outstanding := "", mapped_cusip := "" }

/-- First filer's row for the consolidation examples (900,000 shares). -/
def exRowA : Row :=
  { filer_cik := "0001", report_date := "2015-03-31", ticker := "AAPL",
    accession := "A1", form := "13F-HR", filing_date := "2015-05-01",
    shares_held := 900000, value_usd_thousands := 90,
    shares_outstanding := "100", mapped_cusip := "037833100" }

/-- Second filer's row for the consolidation examples (50,000 shares). -/
def exRowB : Row :=
  { filer_cik := "0002", report_date := "2015-03-31", ticker := "AAPL",
    accession := "A2", form := "13F-HR", filing_date := "2015-05-02",
    shares_held := 50000, value_usd_thousands := 5,
    shares_outstanding := "200", mapped_cusip := "037833100" }

/-- First sub-fund row (same filing and identifier as `exSub2`). -/
def exSub1 : Row :=
  { filer_cik := "0001", report_date := "2015-03-31", ticker := "AAPL",
    accession := "A1", form := "13F-HR", filing_date := "2015-05-01",
    shares_held := 100, value_usd_thousands := 10,
    shares_outstanding := "", mapped_cusip := "" }

/-- Second sub-fund row (same filing and identifier as `exSub1`). -/
def exSub2 : Row :=
  { filer_cik := "0001", report_date := "2015-03-31", ticker := "AAPL",
    accession := "A1", form := "13F-HR", filing_date := "2015-05-01",
    shares_held := 200, value_usd_thousands := 20,
    shares_outstanding := "", mapped_cusip := "" }

/-- Witness for C9: on a concrete input, the accession's row list in the
built group is non-empty, and the two dedupe variants agree. -/
theorem c9_witness :
    ("A1", [exSolo]).2 ≠ [] ∧
    dedupe_raw [exSolo] = dedupe_raw_nofallback [exSolo] :=
  ⟨(c9_no_fallback [exSolo]).1
      (("0001", "2015-03-31", "AAPL"), [("A1", [exSolo])]) (by decide)
      ("A1", [exSolo]) (by decide),
   (c9_no_fallback [exSolo]).2⟩

/-- C2 — For every (filer, report-period, identifier) group to which more
than one accession contributed, exactly the rows of the best-recency
accession are kept: the best accession is in the group, every other
accession ranks strictly below it (amendment flag, then filing date, then
accession id), the kept rows are the best accession's rows, and — when
rows of one accession share one form — an amendment contributing any row
means the amendment accession is selected.  The de-duplicated output is a
permutation of the per-group kept rows. -/
theorem c2_dedupe_best_accession (rows : List Row) :
    (∀ (gkey : String × String × String) (accs : List (String × List Row)),
      (gkey, accs) ∈ dedupe_groups rows → 2 ≤ accs.length →
      bestAcc accs ∈ accs ∧
      (∀ a ∈ accs, a.1 ≠ (bestAcc accs).1 →
        recLt (accKey a) (accKey (bestAcc accs)) = true) ∧
      groupKept accs = (bestAcc accs).2 ∧
      ((∀ r ∈ rows, ∀ s ∈ rows, r.accession = s.accession → r.form = s.form) →
       (∃ a ∈ accs, ∃ x ∈ a.2, x.form = "13F-HR/A") →
       (bestAcc accs).2.headI.form = "13F-HR/A")) ∧
    List.Perm (dedupe_raw rows)
      (((dedupe_groups rows).map (fun g => groupKept g.2)).flatten) := by
  constructor
  · intro gkey accs hmem hlen
    obtain ⟨hgne, hnd, hent⟩ := dedupe_groups_inv rows (gkey, accs) hmem
    have hne : accs ≠ [] := by
      cases accs
      · simp at hlen
      · simp
    obtain ⟨hbmem, hbmax⟩ := bestAcc_spec accs hne
    refine ⟨hbmem, ?_, ?_, ?_⟩
    · intro a ha hane
      rcases recLt_trichot (accKey a) (accKey (bestAcc accs)) with h | h | h
      · exact h
      · have := hbmax a ha
        rw [h] at this
        exact absurd this (by simp)
      · exfalso
        apply hane
        have := congrArg (fun t => t.2.2) h
        simpa [accKey, _recency] using this
    · unfold groupKept
      rw [if_neg (by omega)]
      have hbne : (bestAcc accs).2 ≠ [] := (hent _ hbmem).1
      rw [if_pos (by
        cases hb : (bestAcc accs).2 with
        | nil => exact absurd hb hbne
        | cons x xs => simp [hb])]
    · intro hcons ⟨a0, ha0, x, hx, hxf⟩
      obtain ⟨ha0ne, ha0all⟩ := hent a0 ha0
      have hy : a0.2.headI ∈ a0.2 := by
        cases h0 : a0.2 with
        | nil => exact absurd h0 ha0ne
        | cons c t => simp [h0]
      have hyform : a0.2.headI.form = "13F-HR/A" := by
        have h1 := ha0all _ hy
        have h2 := ha0all _ hx
        rw [hcons _ h1.1 _ h2.1 (by rw [h1.2, h2.2]), hxf]
      by_contra hb
      have hka : accKey a0 =
          (1, (parse_date a0.2.headI.filing_date).getD ⟨1900, 1, 1⟩, a0.1) := by
        unfold accKey _recency
        rw [if_pos (by simpa [beq_iff_eq] using hyform)]
      have hkb : accKey (bestAcc accs) =
          (0, (parse_date (bestAcc accs).2.headI.filing_date).getD
            ⟨1900, 1, 1⟩, (bestAcc accs).1) := by
        unfold accKey _recency
        rw [if_neg (by simpa [beq_iff_eq] using hb)]
      have hmax := hbmax a0 ha0
      rw [hka, hkb] at hmax
      simp [recLt] at hmax
  · unfold dedupe_raw
    exact List.mergeSort_perm _ _

/-- Witness for C2: original `exSolo` (accession A1) and amendment
`exAmend` (accession A2) for the same filer/period/ticker: the kept rows
are the best accession's rows, and the best accession is the amendment. -/
theorem c2_witness :
    groupKept [("A1", [exSolo]), ("A2", [exAmend])] =
      (bestAcc [("A1", [exSolo]), ("A2", [exAmend])]).2 ∧
    (bestAcc [("A1", [exSolo]), ("A2", [exAmend])]).2.headI.form =
      "13F-HR/A" :=
  ⟨(((c2_dedupe_best_accession [exSolo, exAmend]).1
      ("0001", "2015-03-31", "AAPL") [("A1", [exSolo]), ("A2", [exAmend])]
      (by decide) (by decide))).2.2.1,
   (((c2_dedupe_best_accession [exSolo, exAmend]).1
      ("0001", "2015-03-31", "AAPL") [("A1", [exSolo]), ("A2", [exAmend])]
      (by decide) (by decide))).2.2.2 (by decide) (by decide)⟩

theorem updInfo_shares (i : FilerInfo) (r : Row) :
    (updInfo i r).shares = i.shares + r.shares_held := by
  unfold updInfo
  dsimp only
  split <;> split <;> split <;> rfl

theorem updInfo_value (i : FilerInfo) (r : Row) :
    (updInfo i r).value = i.value + r.value_usd_thousands := by
  unfold updInfo
  dsimp only
  split <;> split <;> split <;> rfl

/-- `addFiler` updates exactly the row's filer in the dict (any other key
sees an unchanged lookup). -/
theorem lookup_addFiler (d : List (String × FilerInfo)) (r : Row)
    (fc : String) :
    (addFiler d r).lookup fc =
      if fc = r.filer_cik then
        some (updInfo ((d.lookup fc).getD emptyInfo) r)
      else d.lookup fc := by
  induction d with
  | nil =>
    by_cases h : fc = r.filer_cik
    · rw [if_pos h]
      subst h
      simp [addFiler, List.lookup]
    · rw [if_neg h]
      have hb : (fc == r.filer_cik) = false := by
        rw [beq_eq_false_iff_ne]
        exact h
      simp [addFiler, List.lookup, hb]
  | cons p rest ih =>
    unfold addFiler
    by_cases hp : p.1 = r.filer_cik
    · rw [if_pos hp]
      by_cases hfc : fc = r.filer_cik
      · rw [if_pos hfc]
        have : (fc == p.1) = true := by rw [beq_iff_eq, hfc, hp]
        simp [List.lookup, this]
      · rw [if_neg hfc]
        have : (fc == p.1) = false := by
          rw [beq_eq_false_iff_ne]
          rw [hp]
          exact hfc
        simp [List.lookup, this]
    · rw [if_neg hp]
      by_cases hfcp : fc = p.1
      · have hb : (fc == p.1) = true := by rw [beq_iff_eq]; exact hfcp
        have hfcr : ¬ fc = r.filer_cik := by
          rw [hfcp]
          exact hp
        simp [List.lookup, hb, hfcr]
      · have hb : (fc == p.1) = false := by
          rw [beq_eq_false_iff_ne]
          exact hfcp
        simp only [List.lookup, hb, cond_false]
        exact ih

theorem sumShares_cons (r : Row) (l : List Row) (fc : String) :
    sumShares (r :: l) fc =
      (if r.filer_cik = fc then r.shares_held else 0) + sumShares l fc := by
  unfold sumShares
  by_cases h : r.filer_cik = fc
  · rw [if_pos h]
    have hb : (r.filer_cik == fc) = true := by rw [beq_iff_eq]; exact h
    simp [List.filter, hb]
  · rw [if_neg h]
    have hb : (r.filer_cik == fc) = false := by
      rw [beq_eq_false_iff_ne]
      exact h
    simp [List.filter, hb]

theorem sumValues_cons (r : Row) (l : List Row) (fc : String) :
    sumValues (r :: l) fc =
      (if r.filer_cik = fc then r.value_usd_thousands else 0) +
        sumValues l fc := by
  unfold sumValues
  by_cases h : r.filer_cik = fc
  · rw [if_pos h]
    have hb : (r.filer_cik == fc) = true := by rw [beq_iff_eq]; exact h
    simp [List.filter, hb]
  · rw [if_neg h]
    have hb : (r.filer_cik == fc) = false := by
      rw [beq_eq_false_iff_ne]
      exact h
    simp [List.filter, hb]

/-- The `by_filer` fold accumulates, per filer, exactly the sums of that
filer's rows. -/
theorem by_filer_fold_sums (l : List Row) :
    ∀ (acc : List (String × FilerInfo)) (fc : String),
      (((l.foldl addFiler acc).lookup fc).getD emptyInfo).shares =
        ((acc.lookup fc).getD emptyInfo).shares + sumShares l fc ∧
      (((l.foldl addFiler acc).lookup fc).getD emptyInfo).value =
        ((acc.lookup fc).getD emptyInfo).value + sumValues l fc := by
  induction l with
  | nil =>
    intro acc fc
    simp [sumShares, sumValues]
  | cons r l ih =>
    intro acc fc
    simp only [List.foldl_cons]
    obtain ⟨ihs, ihv⟩ := ih (addFiler acc r) fc
    rw [ihs, ihv, lookup_addFiler, sumShares_cons, sumValues_cons]
    by_cases h : fc = r.filer_cik
    · rw [if_pos h, if_pos (h.symm), if_pos (h.symm)]
      simp only [Option.getD_some, updInfo_shares, updInfo_value]
      omega
    · rw [if_neg h, if_neg (fun hh => h hh.symm), if_neg (fun hh => h hh.symm)]
      omega

/-- The keys of `addFiler`: unchanged when the filer is present, appended
otherwise. -/
theorem addFiler_keys (d : List (String × FilerInfo)) (r : Row) :
    (addFiler d r).map (fun p => p.1) =
      if r.filer_cik ∈ d.map (fun p => p.1) then d.map (fun p => p.1)
      else d.map (fun p => p.1) ++ [r.filer_cik] := by
  induction d with
  | nil => simp [addFiler]
  | cons p rest ih =>
    unfold addFiler
    by_cases hp : p.1 = r.filer_cik
    · rw [if_pos hp]
      simp [hp]
    · rw [if_neg hp]
      simp only [List.map_cons, ih]
      by_cases hm : r.filer_cik ∈ rest.map (fun p => p.1)
      · rw [if_pos hm, if_pos (by simp [hm])]
      · rw [if_neg hm, if_neg (by
          simp only [List.mem_cons]
          rintro (h | h)
          · exact hp h.symm
          · exact hm h)]
        simp

/-- `by_filer` keys are duplicate-free. -/
theorem by_filer_keys_nodup (recs : List Row) :
    ((by_filer recs).map (fun p => p.1)).Nodup := by
  have haux : ∀ (l : List Row) (acc : List (String × FilerInfo)),
      (acc.map (fun p => p.1)).Nodup →
      (((l.foldl addFiler acc)).map (fun p => p.1)).Nodup := by
    intro l
    induction l with
    | nil => intro acc h; simpa using h
    | cons r l ih =>
      intro acc h
      simp only [List.foldl_cons]
      apply ih
      rw [addFiler_keys]
      by_cases hm : r.filer_cik ∈ acc.map (fun p => p.1)
      · rwa [if_pos hm]
      · rw [if_neg hm]
        simp [List.nodup_append, h, hm]
  exact haux recs [] (by simp)

/-- With duplicate-free keys, membership determines the lookup. -/
theorem nodup_mem_lookup {d : List (String × FilerInfo)}
    (hnd : (d.map (fun p => p.1)).Nodup) :
    ∀ p ∈ d, d.lookup p.1 = some p.2 := by
  induction d with
  | nil => simp
  | cons q rest ih =>
    intro p hp
    rcases List.mem_cons.mp hp with h | h
    · rw [h]
      simp [List.lookup]
    · have hq : q.1 ∉ rest.map (fun p => p.1) := by
        simp only [List.map_cons, List.nodup_cons] at hnd
        exact hnd.1
      have hne : (p.1 == q.1) = false := by
        rw [beq_eq_false_iff_ne]
        intro hh
        exact hq (hh ▸ List.mem_map_of_mem _ h)
      simp only [List.lookup, hne, cond_false]
      exact ih (by
        simp only [List.map_cons, List.nodup_cons] at hnd
        exact hnd.2) p h

/-- Every `by_filer` entry carries exactly the sums of its filer's rows. -/
theorem by_filer_sums (recs : List Row) :
    ∀ p ∈ by_filer recs,
      p.2.shares = sumShares recs p.1 ∧ p.2.value = sumValues recs p.1 := by
  intro p hp
  have hl := nodup_mem_lookup (by_filer_keys_nodup recs) p hp
  obtain ⟨hs, hv⟩ := by_filer_fold_sums recs [] p.1
  unfold by_filer at hl
  rw [hl] at hs hv
  simp only [Option.getD_some, List.lookup] at hs hv
  constructor
  · rw [hs]
    simp [emptyInfo]
  · rw [hv]
    simp [emptyInfo]

/-- C3 — Within one filing (a single accession), multiple holding rows
sharing an identifier are never deduplicated against each other
(`dedupe_raw` returns a permutation of the input), and consolidation sums
share and value amounts per filer; concretely, two sub-fund rows of 100
and 200 shares consolidate to 300. -/
theorem c3_subfund_rows_preserved_and_summed :
    (∀ (rows : List Row) (a : String), (∀ r ∈ rows, r.accession = a) →
      List.Perm (dedupe_raw rows) rows) ∧
    (∀ recs : List Row, ∀ p ∈ by_filer recs,
      p.2.shares = sumShares recs p.1 ∧ p.2.value = sumValues recs p.1) ∧
    (build_panel "G" [exSub1, exSub2]).map
      (fun e => (e.shares_held, e.value_usd_thousands,
        e.consolidation_note)) = [(300, 30, "SINGLE_FILER")] := by
  refine ⟨?_, by_filer_sums, ?_⟩
  · intro rows a hall
    have hperm1 : List.Perm (dedupe_raw rows)
        (((dedupe_groups rows).map (fun g => groupKept g.2)).flatten) := by
      unfold dedupe_raw
      exact List.mergeSort_perm _ _
    have hmapeq : (dedupe_groups rows).map (fun g => groupKept g.2) =
        (dedupe_groups rows).map groupRows := by
      apply List.map_congr_left
      intro g hg
      obtain ⟨hgne, hnd, hent⟩ := dedupe_groups_inv rows g hg
      have hkey : ∀ e ∈ g.2, e.1 = a := by
        intro e he
        obtain ⟨hene, hall'⟩ := hent e he
        have hz : e.2.headI ∈ e.2 := by
          cases h0 : e.2 with
          | nil => exact absurd h0 hene
          | cons c t => simp [h0]
        obtain ⟨hzr, hza⟩ := hall' _ hz
        rw [← hza]
        exact hall _ hzr
      have hlen1 : g.2.length = 1 := by
        match hg2 : g.2 with
        | [] => exact absurd hg2 hgne
        | [x] => rfl
        | x :: y :: t =>
          exfalso
          have hx := hkey x (by rw [hg2]; exact List.mem_cons_self _ _)
          have hy := hkey y (by
            rw [hg2]
            exact List.mem_cons_of_mem _ (List.mem_cons_self _ _))
          rw [hg2] at hnd
          simp only [List.map_cons, List.nodup_cons, List.mem_cons] at hnd
          exact hnd.1 (Or.inl (by rw [hx, hy]))
      unfold groupKept groupRows
      rw [if_pos hlen1]
    rw [hmapeq] at hperm1
    exact hperm1.trans (dedupe_groups_perm rows)
  · unfold build_panel
    have h : (by_key [exSub1, exSub2]).map
        (fun g => panelEntry "G" g.1 g.2) =
        [panelEntry "G" ("AAPL", "2015-03-31") [exSub1, exSub2]] := by decide
    rw [h, List.mergeSort_singleton]
    decide

/-- Witness for C3: the two sub-fund rows of one accession survive
de-duplication as a permutation of the input, and the concrete by-filer
entry carries the 300/30 sums. -/
theorem c3_witness :
    List.Perm (dedupe_raw [exSub1, exSub2]) [exSub1, exSub2] ∧
    (("0001", (⟨300, 30, "", "", "", ""⟩ : FilerInfo)) :
        String × FilerInfo).2.shares =
      sumShares [exSub1, exSub2] "0001" :=
  ⟨c3_subfund_rows_preserved_and_summed.1 [exSub1, exSub2] "A1" (by decide),
   (c3_subfund_rows_preserved_and_summed.2.1 [exSub1, exSub2]
      ("0001", ⟨300, 30, "", "", "", ""⟩) (by decide)).1⟩

/-- C1 — A multi-filer (ticker, report-period) consolidation group takes
the dominant filer's totals: the output record's shares and value are
exactly the per-filer sums of the filer with the largest share total
(every other filer's total is no larger), the note records the
dominant-filer method with that filer's id, and all contributing filer ids
are recorded.  Concretely, filers with 900,000 and 50,000 shares
consolidate to 900,000 with both ids recorded. -/
theorem c1_build_panel_dominant_filer :
    (∀ (group : String) (rows : List Row) (key : String × String)
        (recs : List Row), (key, recs) ∈ by_key rows →
      2 ≤ (by_filer recs).length →
      ∃ e ∈ build_panel group rows,
        e.ticker = key.1 ∧ e.report_date = key.2 ∧
        maxFiler (by_filer recs) ∈ by_filer recs ∧
        (∀ p ∈ by_filer recs,
          p.2.shares ≤ (maxFiler (by_filer recs)).2.shares) ∧
        e.shares_held = (maxFiler (by_filer recs)).2.shares ∧
        e.value_usd_thousands = (maxFiler (by_filer recs)).2.value ∧
        (maxFiler (by_filer recs)).2.shares =
          sumShares recs (maxFiler (by_filer recs)).1 ∧
        (maxFiler (by_filer recs)).2.value =
          sumValues recs (maxFiler (by_filer recs)).1 ∧
        e.consolidation_note =
          "MAX_FILER(" ++ (maxFiler (by_filer recs)).1 ++ ")" ∧
        e.filer_ciks_used =
          String.intercalate ";" ((by_filer recs).map (fun p => p.1)) ∧
        e.num_filer_ciks = (by_filer recs).length) ∧
    (build_panel "G" [exRowA, exRowB]).map
      (fun e => (e.shares_held, e.value_usd_thousands, e.consolidation_note,
        e.filer_ciks_used)) =
      [(900000, 90, "MAX_FILER(0001)", "0001;0002")] := by
  constructor
  · intro group rows key recs hmem hlen
    have hne : by_filer recs ≠ [] := by
      cases h : by_filer recs
      · rw [h] at hlen
        simp at hlen
      · simp
    obtain ⟨hmx, hmax⟩ := maxFiler_spec (by_filer recs) hne
    have hpe : panelEntry group key recs =
        { group := group, ticker := key.1,
          mapped_cusip :=
            ((by_filer recs).foldl accumStep ⟨"", "", "", ""⟩).mc,
          report_date := key.2,
          shares_held := (maxFiler (by_filer recs)).2.shares,
          value_usd_thousands :=
            (((by_filer recs).lookup (maxFiler (by_filer recs)).1).getD
              emptyInfo).value,
          num_filer_ciks := (by_filer recs).length,
          filer_ciks_used :=
            String.intercalate ";" ((by_filer recs).map (fun p => p.1)),
          consolidation_note :=
            "MAX_FILER(" ++ (maxFiler (by_filer recs)).1 ++ ")",
          latest_filing_date :=
            ((by_filer recs).foldl accumStep ⟨"", "", "", ""⟩).lfd,
          latest_accession :=
            ((by_filer recs).foldl accumStep ⟨"", "", "", ""⟩).lacc,
          shares_outstanding :=
            ((by_filer recs).foldl accumStep ⟨"", "", "", ""⟩).so } := by
      simp only [panelEntry]
      rw [if_neg (by omega)]
    have hlu : (by_filer recs).lookup (maxFiler (by_filer recs)).1 =
        some (maxFiler (by_filer recs)).2 :=
      nodup_mem_lookup (by_filer_keys_nodup recs) _ hmx
    refine ⟨panelEntry group key recs, ?_, ?_⟩
    · unfold build_panel
      rw [(List.mergeSort_perm _ panelLe).mem_iff]
      exact List.mem_map_of_mem _ hmem
    · refine ⟨by rw [hpe], by rw [hpe], hmx, ?_, by rw [hpe], ?_, ?_, ?_,
        by rw [hpe], by rw [hpe], by rw [hpe]⟩
      · intro p hp
        have := hmax p hp
        simp only [intLtB, decide_eq_false_iff_not] at this
        omega
      · rw [hpe]
        simp only [hlu, Option.getD_some]
      · exact (by_filer_sums recs _ hmx).1
      · exact (by_filer_sums recs _ hmx).2
  · unfold build_panel
    have h : (by_key [exRowA, exRowB]).map
        (fun g => panelEntry "G" g.1 g.2) =
        [panelEntry "G" ("AAPL", "2015-03-31") [exRowA, exRowB]] := by decide
    rw [h, List.mergeSort_singleton]
    decide

/-- Witness for C1: the two-filer 900,000/50,000 example, instantiating the
universal statement at its concrete group. -/
theorem c1_witness :
    ∃ e ∈ build_panel "G" [exRowA, exRowB],
      e.ticker = "AAPL" ∧ e.report_date = "2015-03-31" ∧
      maxFiler (by_filer [exRowA, exRowB]) ∈ by_filer [exRowA, exRowB] ∧
      (∀ p ∈ by_filer [exRowA, exRowB],
        p.2.shares ≤ (maxFiler (by_filer [exRowA, exRowB])).2.shares) ∧
      e.shares_held = (maxFiler (by_filer [exRowA, exRowB])).2.shares ∧
      e.value_usd_thousands = (maxFiler (by_filer [exRowA, exRowB])).2.value ∧
      (maxFiler (by_filer [exRowA, exRowB])).2.shares =
        sumShares [exRowA, exRowB] (maxFiler (by_filer [exRowA, exRowB])).1 ∧
      (maxFiler (by_filer [exRowA, exRowB])).2.value =
        sumValues [exRowA, exRowB] (maxFiler (by_filer [exRowA, exRowB])).1 ∧
      e.consolidation_note =
        "MAX_FILER(" ++ (maxFiler (by_filer [exRowA, exRowB])).1 ++ ")" ∧
      e.filer_ciks_used =
        String.intercalate ";"
          ((by_filer [exRowA, exRowB]).map (fun p => p.1)) ∧
      e.num_filer_ciks = (by_filer [exRowA, exRowB]).length :=
  c1_build_panel_dominant_filer.1 "G" [exRowA, exRowB]
    ("AAPL", "2015-03-31") [exRowA, exRowB] (by decide) (by decide)

/-- C7 (code behavior at a failing input) — on the two-filer example the
consolidated record's `latest_filing_date` and `latest_accession` are the
empty string (the `_sort_date("")` sentinel is `9999-12-31`, so the strict
`>` update never fires), and `shares_outstanding` is the last non-empty
value "200" across filers, although the contributors filed on 2015-05-01
and 2015-05-02 with share counts "100" and "200". -/
theorem c7_latest_filing_empty :
    (build_panel "G" [exRowA, exRowB]).map
      (fun e => (e.latest_filing_date, e.latest_accession,
        e.shares_outstanding)) = [("", "", "200")] ∧
    exRowA.filing_date = "2015-05-01" ∧ exRowB.filing_date = "2015-05-02" ∧
    exRowA.shares_outstanding = "100" ∧
    exRowB.shares_outstanding = "200" := by
  refine ⟨?_, rfl, rfl, rfl, rfl⟩
  unfold build_panel
  have h : (by_key [exRowA, exRowB]).map
      (fun g => panelEntry "G" g.1 g.2) =
      [panelEntry "G" ("AAPL", "2015-03-31") [exRowA, exRowB]] := by decide
  rw [h, List.mergeSort_singleton]
  decide
